import Mathlib

/-
Verification of the mod installation and update engine
(`app/core/mod_installer.py`, `app/core/ini_parser.py`, `app/core/mod_updater.py`).

The Python code is embedded shallowly: file contents are Lean `String`s
(`String.data : List Char` plays the role of a Python `str`), the filesystem
under the install target is a finite association list from relative paths to
contents, and every Python helper is transcribed into an executable Lean
function operating on those representations.
-/

set_option maxRecDepth 4000

namespace FSMM

/-! ### Python string primitives

Helpers mirroring the exact `str` operations used by the source
(`strip`, `lower`, `split`, `partition`, `startswith`, `endswith`,
`splitlines`, `readlines` in universal-newline text mode). -/

/-- Whitespace characters recognised by Python's `str.strip()` and the
regex class `\s` (restricted to ASCII, which is all the source manipulates). -/
def pyWs (c : Char) : Bool :=
  c = ' ' ∨ c = '\t' ∨ c = '\n' ∨ c = '\r' ∨ c = '\x0b' ∨ c = '\x0c'

/-- `str.strip()` on a character list. -/
def stripChars (l : List Char) : List Char :=
  ((l.dropWhile pyWs).reverse.dropWhile pyWs).reverse

/-- `str.strip()`. -/
def pyStrip (s : String) : String := ⟨stripChars s.data⟩

/-- `str.lower()` (ASCII case folding). -/
def lowerChars (l : List Char) : List Char := l.map Char.toLower

/-- Leading whitespace of a line, as computed by
`raw_line[: len(raw_line) - len(raw_line.lstrip())]`. -/
def indentChars (l : List Char) : List Char := l.takeWhile pyWs

/-- `str.split(sep)` for a single-character separator; like Python, the
result is never empty (`"".split('.') == ['']`). -/
def splitOnCharL (sep : Char) (l : List Char) : List (List Char) :=
  l.foldr
    (fun c acc =>
      if c = sep then [] :: acc
      else
        match acc with
        | h :: t => (c :: h) :: t
        | [] => [[c]])
    [[]]

/-- Does `l` start with `p`? (`str.startswith`). -/
def startsL : List Char → List Char → Bool
  | _, [] => true
  | [], _ :: _ => false
  | c :: t, d :: u => c = d ∧ startsL t u

/-- `str.startswith` on strings. -/
def strStarts (s p : String) : Bool := startsL s.data p.data

/-- `str.endswith` on strings. -/
def strEnds (s p : String) : Bool := startsL s.data.reverse p.data.reverse

/-- Universal-newline translation performed by text-mode reads:
`\r\n` and lone `\r` both become `\n`. -/
def univNL : List Char → List Char
  | [] => []
  | [c] => if c = '\r' then ['\n'] else [c]
  | c :: d :: t =>
    if c = '\r' then
      if d = '\n' then '\n' :: univNL t
      else '\n' :: univNL (d :: t)
    else c :: univNL (d :: t)

/-- Splits into lines, keeping the terminating `'\n'` on each line
(the behaviour of `file.readlines()` on an already-translated stream).
`cur` carries the current (reversed) unfinished line. -/
def skeAux : List Char → List Char → List (List Char)
  | [], cur => if cur = [] then [] else [cur.reverse]
  | c :: t, cur =>
    if c = '\n' then (c :: cur).reverse :: skeAux t []
    else skeAux t (c :: cur)

/-- `open(path).readlines()` in text mode: universal-newline translation,
then a keep-ends line split. -/
def pyReadlinesL (l : List Char) : List (List Char) := skeAux (univNL l) []

/-- Drop one trailing `'\n'` if present. -/
def chompNL (l : List Char) : List Char :=
  if l.getLast? = some '\n' then l.dropLast else l

/-- `str.splitlines()` (modelling the `\n` / `\r` / `\r\n` separators the
source can actually encounter). -/
def pySplitlinesL (l : List Char) : List (List Char) :=
  (pyReadlinesL l).map chompNL

/-- Concatenation of a list of lines (`file.writelines`). -/
def joinL : List (List Char) → List Char
  | [] => []
  | l :: t => l ++ joinL t

/-- Last-binding association lookup: Python `dict` built by repeated
assignment, queried by key. -/
def lastVal {α β : Type} [DecidableEq α] : List (α × β) → α → Option β
  | [], _ => none
  | (a, b) :: t, k =>
    match lastVal t k with
    | some v => some v
    | none => if a = k then some b else none

/-! ### Version comparison (`mod_updater.version_compare`) -/

/-- Value of a digit run with optional single `_` separators, following
Python's `int` literal grammar (`int("1_0") == 10`, `int("1__0")` raises). -/
def parseDigitsU : Nat → List Char → Option Nat
  | acc, [] => some acc
  | acc, c :: t =>
    if c.isDigit then parseDigitsU (acc * 10 + (c.toNat - '0'.toNat)) t
    else if c = '_' then
      match t with
      | d :: t2 => if d.isDigit then parseDigitsU (acc * 10 + (d.toNat - '0'.toNat)) t2 else none
      | [] => none
    else none

/-- Python `int(s)` on a string: strip whitespace, optional sign, then a
nonempty digit sequence (with `_` group separators); `none` models
`ValueError`. -/
def pyInt (s : String) : Option Int :=
  match stripChars s.data with
  | '+' :: (c :: t) => if c.isDigit then (parseDigitsU 0 (c :: t)).map Int.ofNat else none
  | '-' :: (c :: t) => if c.isDigit then (parseDigitsU 0 (c :: t)).map (fun n => -(n : Int)) else none
  | c :: t => if c.isDigit then (parseDigitsU 0 (c :: t)).map Int.ofNat else none
  | [] => none

/-- The inner `normalize` of `version_compare`: split on `.`, convert the
segments to integers, stopping at the first segment `int` rejects. -/
def vcNormalize (v : String) : List Int :=
  go ((splitOnCharL '.' v.data).map (fun l => (⟨l⟩ : String)))
where
  go : List String → List Int
    | [] => []
    | p :: t =>
      match pyInt p with
      | some n => n :: go t
      | none => []

/-- The final comparison loop of `version_compare` over two zipped lists. -/
def vcLoop : List Int → List Int → Int
  | a :: t, b :: u => if a < b then -1 else if a > b then 1 else vcLoop t u
  | _, _ => 0

/-- `version_compare(v1, v2)`: normalize both, right-pad the shorter with
zeros, compare pairwise; returns -1/0/1. -/
def version_compare (v1 v2 : String) : Int :=
  let p1 := vcNormalize v1
  let p2 := vcNormalize v2
  let maxLen := max p1.length p2.length
  vcLoop (p1 ++ List.replicate (maxLen - p1.length) 0)
         (p2 ++ List.replicate (maxLen - p2.length) 0)

/-- The zero-padding of a normalized tuple to length `n`. -/
def vcPad (v : String) (n : Nat) : List Int :=
  vcNormalize v ++ List.replicate (n - (vcNormalize v).length) 0

theorem vcLoop_spec : ∀ l1 l2 : List Int, l1.length = l2.length →
    (vcLoop l1 l2 = -1 ↔ List.Lex (· < ·) l1 l2) ∧
    (vcLoop l1 l2 = 0 ↔ l1 = l2) ∧
    (vcLoop l1 l2 = 1 ↔ List.Lex (· < ·) l2 l1) := by
  intro l1
  induction l1 with
  | nil =>
    intro l2 h
    have : l2 = [] := List.length_eq_zero.mp h.symm
    subst this
    refine ⟨⟨fun hx => absurd hx (by decide), fun hx => by cases hx⟩,
      by simp [vcLoop], ⟨fun hx => absurd hx (by decide), fun hx => by cases hx⟩⟩
  | cons a t ih =>
    intro l2 h
    cases l2 with
    | nil => simp at h
    | cons b u =>
      obtain ⟨ih1, ih2, ih3⟩ := ih u (by simpa using h)
      rcases lt_trichotomy a b with hab | hab | hab
      · have hvc : vcLoop (a :: t) (b :: u) = -1 := by simp [vcLoop, hab]
        refine ⟨?_, ?_, ?_⟩
        · rw [hvc]
          exact ⟨fun _ => List.Lex.rel hab, fun _ => rfl⟩
        · rw [hvc]
          constructor
          · intro hx; exact absurd hx (by decide)
          · intro hx
            injection hx with h1 _
            exact absurd h1 (ne_of_lt hab)
        · rw [hvc]
          constructor
          · intro hx; exact absurd hx (by decide)
          · intro hx
            cases hx with
            | rel hr => exact absurd hab (asymm hr)
            | cons hc => exact absurd hab (lt_irrefl a)
      · subst hab
        have hvc : vcLoop (a :: t) (a :: u) = vcLoop t u := by
          simp [vcLoop]
        refine ⟨?_, ?_, ?_⟩
        · rw [hvc]
          constructor
          · intro hx; exact List.Lex.cons (ih1.mp hx)
          · intro hx
            cases hx with
            | rel hr => exact absurd hr (lt_irrefl a)
            | cons hc => exact ih1.mpr hc
        · rw [hvc]
          constructor
          · intro hx; rw [ih2.mp hx]
          · intro hx
            injection hx with _ h2
            exact ih2.mpr h2
        · rw [hvc]
          constructor
          · intro hx; exact List.Lex.cons (ih3.mp hx)
          · intro hx
            cases hx with
            | rel hr => exact absurd hr (lt_irrefl a)
            | cons hc => exact ih3.mpr hc
      · have hvc : vcLoop (a :: t) (b :: u) = 1 := by
          simp [vcLoop, hab, not_lt_of_gt hab]
        refine ⟨?_, ?_, ?_⟩
        · rw [hvc]
          constructor
          · intro hx; exact absurd hx (by decide)
          · intro hx
            cases hx with
            | rel hr => exact absurd hab (asymm hr)
            | cons hc => exact absurd hab (lt_irrefl a)
        · rw [hvc]
          constructor
          · intro hx; exact absurd hx (by decide)
          · intro hx
            injection hx with h1 _
            exact absurd h1.symm (ne_of_lt hab)
        · rw [hvc]
          exact ⟨fun _ => List.Lex.rel hab, fun _ => rfl⟩

/-- C2: `version_compare` splits each version on `.`, converts segments to
integers stopping at the first segment that does not parse as an integer
(truncating pre-release suffixes), right-pads the shorter tuple with zeros
and compares the equalized tuples lexicographically, returning -1/0/1; in
particular `("1.9.0","1.10.0") = -1`, `("1.2","1.2.0") = 0`, and
`("2.0.0-beta","2.0.0") = 0`. -/
theorem version_compare_spec :
    (∀ v1 v2 : String,
      (version_compare v1 v2 = -1 ↔
        List.Lex (· < ·)
          (vcPad v1 (max (vcNormalize v1).length (vcNormalize v2).length))
          (vcPad v2 (max (vcNormalize v1).length (vcNormalize v2).length))) ∧
      (version_compare v1 v2 = 0 ↔
        vcPad v1 (max (vcNormalize v1).length (vcNormalize v2).length) =
        vcPad v2 (max (vcNormalize v1).length (vcNormalize v2).length)) ∧
      (version_compare v1 v2 = 1 ↔
        List.Lex (· < ·)
          (vcPad v2 (max (vcNormalize v1).length (vcNormalize v2).length))
          (vcPad v1 (max (vcNormalize v1).length (vcNormalize v2).length)))) ∧
    version_compare "1.9.0" "1.10.0" = -1 ∧
    version_compare "1.2" "1.2.0" = 0 ∧
    version_compare "2.0.0-beta" "2.0.0" = 0 := by
  refine ⟨?_, by decide, by decide, by decide⟩
  intro v1 v2
  have hlen : (vcPad v1 (max (vcNormalize v1).length (vcNormalize v2).length)).length =
      (vcPad v2 (max (vcNormalize v1).length (vcNormalize v2).length)).length := by
    simp only [vcPad, List.length_append, List.length_replicate]
    omega
  have h := vcLoop_spec _ _ hlen
  have hvc : version_compare v1 v2 =
      vcLoop (vcPad v1 (max (vcNormalize v1).length (vcNormalize v2).length))
             (vcPad v2 (max (vcNormalize v1).length (vcNormalize v2).length)) := rfl
  rw [hvc]
  exact h

/-! ### Zip extraction (`mod_installer._detect_root_folder`, `_extract_zip`)

Paths handled by `_extract_zip` are modelled as plain strings; `os.path`
calls are modelled for POSIX absolute paths without symlinks
(`os.path.realpath` is then lexical `..`/`.`/`//` normalization). -/

/-- `f.replace("\\", "/")`. -/
def normSlash (s : String) : String :=
  ⟨s.data.map (fun c => if c = '\\' then '/' else c)⟩

/-- First path segment: `s.split("/")[0]`. -/
def firstSeg (s : String) : String := ⟨s.data.takeWhile (· ≠ '/')⟩

/-- `_detect_root_folder(file_list)`: normalize separators, take the first
segment of the first entry, and return it when every normalized entry
either equals it or starts with it followed by `/`. -/
def detect_root_folder (fileList : List String) : Option String :=
  if fileList = [] then none
  else
    let normalized := fileList.map normSlash
    let firstPart := firstSeg (normalized.headD "")
    if normalized.all (fun f => strStarts f (firstPart ++ "/") ∨ f = firstPart) then
      some firstPart
    else none

/-- `os.path.join` for POSIX: an absolute second argument replaces the
first, otherwise the parts are glued with a single `/`. -/
def pyJoin (base rel : String) : String :=
  if rel.data.head? = some '/' then rel
  else if base = "" ∨ base.data.getLast? = some '/' then base ++ rel
  else base ++ "/" ++ rel

/-- Lexical normalization of a segment list: drop empty and `.` segments,
let `..` pop the previous segment (staying at the root when there is none).
`acc` holds the already-normalized segments in reverse. -/
def normSegsAux (acc : List String) : List String → List String
  | [] => acc.reverse
  | s :: t =>
    if s = "" ∨ s = "." then normSegsAux acc t
    else if s = ".." then normSegsAux (acc.drop 1) t
    else normSegsAux (s :: acc) t

/-- Interleave path segments with `/`. -/
def joinSep : List String → String
  | [] => ""
  | [x] => x
  | x :: t => x ++ "/" ++ joinSep t

/-- `os.path.realpath` on an absolute POSIX path with no symlinks involved:
purely lexical resolution of `.` and `..`. -/
def realpathStr (s : String) : String :=
  "/" ++ joinSep (normSegsAux [] ((splitOnCharL '/' s.data).map (fun l => (⟨l⟩ : String))))

/-- Root stripping inside the `_extract_zip` loop
(`if root_folder and file_path.startswith(root_folder + "/") ... elif
root_folder and file_path == root_folder`): when the detected root is
truthy (present and nonempty), strip `root_folder + "/"` from a raw name
that literally starts with it and skip a raw name equal to the root folder
(`none`); every other name — including every name when the detected root
is `""`, which is falsy in Python — passes through unchanged. -/
def zipStrip : Option String → String → Option String
  | some r, name =>
    if r ≠ "" ∧ strStarts name (r ++ "/") = true then
      some ⟨name.data.drop (r.data.length + 1)⟩
    else if r ≠ "" ∧ name = r then none
    else some name
  | none, name => some name

/-- The containment check and write of the `_extract_zip` loop:
`target_path = os.path.join(extract_target, file_path)` is written exactly
when `os.path.realpath(target_path).startswith(os.path.realpath(extract_target))`. -/
def destCheck (extractTarget filePath : String) : Option String :=
  if strStarts (realpathStr (pyJoin extractTarget filePath)) (realpathStr extractTarget) then
    some (realpathStr (pyJoin extractTarget filePath))
  else none

/-- One iteration of the `_extract_zip` loop: returns the resolved
destination written for the entry, or `none` when the entry is skipped
(directory entries, the bare root-folder entry, and entries failing the
containment check). -/
def zipEntryDest (extractTarget : String) (rootFolder : Option String) (name : String) :
    Option String :=
  if strEnds name "/" then none
  else
    match zipStrip rootFolder name with
    | none => none
    | some filePath => destCheck extractTarget filePath

/-- `_extract_zip(zip_path, extract_target)`: the list of resolved
destinations actually written, in archive order (the function's return
value `extracted` is the length of this list, incremented exactly once per
written file). -/
def extract_zip_writes (extractTarget : String) (names : List String) : List String :=
  go names
where
  go : List String → List String
    | [] => []
    | n :: t =>
      match zipEntryDest extractTarget (detect_root_folder names) n with
      | some d => d :: go t
      | none => go t

/-- The count returned by `_extract_zip`. -/
def extract_zip_count (extractTarget : String) (names : List String) : Nat :=
  (extract_zip_writes extractTarget names).length

/-- Resolved destination `d` lies strictly inside directory `t`. -/
def insideDir (t d : String) : Bool := strStarts d (realpathStr t ++ "/")

theorem headD_map_normSlash (l : List String) :
    (l.map normSlash).headD "" = normSlash (l.headD "") := by
  cases l <;> rfl

theorem extract_zip_writes_go (extractTarget : String) (names : List String) :
    ∀ l, extract_zip_writes.go extractTarget names l =
      l.filterMap (zipEntryDest extractTarget (detect_root_folder names)) := by
  intro l
  induction l with
  | nil => rfl
  | cons n t ih =>
    rw [extract_zip_writes.go, List.filterMap_cons]
    cases zipEntryDest extractTarget (detect_root_folder names) n <;> simp [ih]

theorem destCheck_some_starts (t fp d : String)
    (h : destCheck t fp = some d) : strStarts d (realpathStr t) = true := by
  unfold destCheck at h
  split at h
  · injection h with h2
    subst h2
    assumption
  · cases h

theorem zipEntryDest_some_starts (t : String) (r : Option String) (n d : String)
    (h : zipEntryDest t r n = some d) : strStarts d (realpathStr t) = true := by
  unfold zipEntryDest at h
  split at h
  · cases h
  · cases hz : zipStrip r n with
    | none => rw [hz] at h; cases h
    | some fp =>
      rw [hz] at h
      exact destCheck_some_starts _ _ _ h

/-- C1 counterexample: the guard is a string-prefix check on resolved
paths, so an entry resolving to the sibling directory `/x/target2` — which
does not lie inside `/x/target` — passes the check and is written outside
the target instead of being skipped. -/
theorem extract_zip_sibling_escape :
    extract_zip_writes "/x/target" ["a.txt", "../target2/evil.txt"] =
      ["/x/target/a.txt", "/x/target2/evil.txt"] ∧
    insideDir "/x/target" "/x/target2/evil.txt" = false := by
  exact ⟨rfl, rfl⟩

/-- C1 (amended): `_extract_zip` processes every entry independently
(an entry that fails the containment check is skipped without aborting the
remaining entries and without being counted), every written destination
starts with the resolved target directory as a string — a guard that stops
parent-escaping entries such as `../../evil.txt` and absolute entries such
as `/abs/evil.txt`, but not sibling directories whose name extends the
target's — and the returned count is exactly the number of written
files. -/
theorem extract_zip_traversal_guard (extractTarget : String) (names : List String) :
    extract_zip_writes extractTarget names =
      names.filterMap (zipEntryDest extractTarget (detect_root_folder names)) ∧
    (∀ d ∈ extract_zip_writes extractTarget names,
      strStarts d (realpathStr extractTarget) = true) ∧
    extract_zip_count extractTarget names =
      (names.filterMap (zipEntryDest extractTarget (detect_root_folder names))).length ∧
    extract_zip_writes "/x/target" ["../../evil.txt", "b.txt"] = ["/x/target/b.txt"] ∧
    extract_zip_writes "/x/target" ["/abs/evil.txt", "b.txt"] = ["/x/target/b.txt"] ∧
    extract_zip_writes "/x/target" ["/a.txt"] = [] := by
  have hw : extract_zip_writes extractTarget names =
      extract_zip_writes.go extractTarget names names := rfl
  refine ⟨extract_zip_writes_go extractTarget names names, ?_, ?_, rfl, rfl, rfl⟩
  · intro d hd
    rw [hw, extract_zip_writes_go extractTarget names names] at hd
    obtain ⟨n, _, hn⟩ := List.mem_filterMap.mp hd
    exact zipEntryDest_some_starts _ _ _ _ hn
  · unfold extract_zip_count
    rw [hw, extract_zip_writes_go extractTarget names names]

theorem extract_zip_traversal_guard_witness :
    strStarts "/x/target/a.txt" (realpathStr "/x/target") = true :=
  (extract_zip_traversal_guard "/x/target" ["a.txt", "b.txt"]).2.1
    "/x/target/a.txt" (by decide)

/-- C4 counterexample: for the entry list `["Mod\a.txt"]` the detector
normalizes the backslash and reports common root `"Mod"`, although the
entry neither equals `"Mod"` nor is literally nested under `"Mod/"`; the
extraction loop, which compares against the raw name, then strips nothing
from it. -/
theorem detect_root_backslash_counterexample :
    detect_root_folder ["Mod\\a.txt"] = some "Mod" ∧
    ¬("Mod\\a.txt" = "Mod" ∨ strStarts "Mod\\a.txt" ("Mod" ++ "/") = true) ∧
    extract_zip_writes "/t" ["Mod\\a.txt"] = ["/t/Mod\\a.txt"] := by
  exact ⟨rfl, by decide, rfl⟩

/-- C4 (amended): for a nonempty entry list, `_detect_root_folder` returns
`r` exactly when `r` is the first segment of the first entry after `\œ→/`
normalization and every normalized entry equals `r` or starts with `r ++ "/"`;
when the detected root is nonempty the extraction loop strips it from
precisely the raw names that literally start with `r ++ "/"` (skipping a
raw name equal to `r`, leaving all other raw names unstripped), while a
detected empty-string root — possible for all-absolute archives — is falsy
in `if root_folder` and strips nothing; an archive with mixed top-level
entries has no common root, and a singly-wrapped archive extracts with the
wrapper folder removed. -/
theorem detect_root_spec :
    (∀ l : List String, l ≠ [] → ∀ r : String,
      (detect_root_folder l = some r ↔
        (r = firstSeg (normSlash (l.headD "")) ∧
         ∀ f ∈ l.map normSlash, strStarts f (r ++ "/") = true ∨ f = r))) ∧
    (∀ t r n, strEnds n "/" = false →
      zipEntryDest t (some r) n =
        (if r ≠ "" ∧ strStarts n (r ++ "/") = true then
          destCheck t ⟨n.data.drop (r.data.length + 1)⟩
        else if r ≠ "" ∧ n = r then none
        else destCheck t n)) ∧
    detect_root_folder ["chr/a.dcx", "other.txt"] = none ∧
    extract_zip_writes "/t" ["chr/a.dcx", "other.txt"] = ["/t/chr/a.dcx", "/t/other.txt"] ∧
    extract_zip_writes "/t" ["ModName/chr/a.dcx", "ModName/parts/b.dcx"] =
      ["/t/chr/a.dcx", "/t/parts/b.dcx"] ∧
    detect_root_folder ["/a.txt"] = some "" ∧
    zipStrip (some "") "/a.txt" = some "/a.txt" := by
  refine ⟨?_, ?_, rfl, rfl, rfl, rfl, rfl⟩
  · intro l hl r
    unfold detect_root_folder
    simp only [hl, if_false]
    constructor
    · intro h
      split at h
      · next hall =>
        injection h with h1
        subst h1
        refine ⟨(headD_map_normSlash l).symm ▸ rfl, ?_⟩
        intro f hf
        obtain ⟨g, hg, hgf⟩ := List.mem_map.mp hf
        subst hgf
        have := List.all_eq_true.mp hall (normSlash g) (List.mem_map_of_mem _ hg)
        have h2 := of_decide_eq_true this
        rcases h2 with h2 | h2
        · left; exact h2
        · right; exact h2
      · cases h
    · rintro ⟨h1, h2⟩
      have hall : (l.map normSlash).all
          (fun f => strStarts f (firstSeg ((l.map normSlash).headD "") ++ "/") ∨
            f = firstSeg ((l.map normSlash).headD "")) = true := by
        apply List.all_eq_true.mpr
        intro f hf
        apply decide_eq_true
        have hh : firstSeg ((l.map normSlash).headD "") = r := by
          rw [headD_map_normSlash, ← h1]
        rw [hh]
        rcases h2 f hf with h3 | h3
        · left; exact h3
        · right; exact h3
      rw [if_pos hall, h1, headD_map_normSlash]
  · intro t r n hn
    unfold zipEntryDest zipStrip
    simp only [hn, Bool.false_eq_true, if_false]
    by_cases h1 : r ≠ "" ∧ strStarts n (r ++ "/") = true
    · rw [if_pos h1, if_pos h1]
    · rw [if_neg h1, if_neg h1]
      by_cases h2 : r ≠ "" ∧ n = r
      · rw [if_pos h2, if_pos h2]
      · rw [if_neg h2, if_neg h2]

theorem detect_root_spec_witness :
    (detect_root_folder ["ModName/chr/a.dcx", "ModName/parts/b.dcx"] = some "ModName" ↔
      ("ModName" =
         firstSeg (normSlash ((["ModName/chr/a.dcx", "ModName/parts/b.dcx"] : List String).headD "")) ∧
       ∀ f ∈ (["ModName/chr/a.dcx", "ModName/parts/b.dcx"] : List String).map normSlash,
         strStarts f ("ModName" ++ "/") = true ∨ f = "ModName")) ∧
    zipEntryDest "/t" (some "ModName") "ModName/chr/a.dcx" =
      (if ("ModName" : String) ≠ "" ∧
          strStarts "ModName/chr/a.dcx" ("ModName" ++ "/") = true then
        destCheck "/t" ⟨("ModName/chr/a.dcx" : String).data.drop
          (("ModName" : String).data.length + 1)⟩
      else if ("ModName" : String) ≠ "" ∧ ("ModName/chr/a.dcx" : String) = "ModName" then none
      else destCheck "/t" "ModName/chr/a.dcx") :=
  ⟨detect_root_spec.1 _ (by decide) "ModName",
   detect_root_spec.2.1 "/t" "ModName" "ModName/chr/a.dcx" (by decide)⟩

/-! ### INI merge (`mod_installer._merge_ini_settings`) -/

/-- Shared key/value line recognition of `_merge_ini_settings`: a stripped
line that is nonempty, does not start with `#` or `;`, and contains `=` is
split at the first `=`; key and value are stripped.  Returns `none` for
every other line. -/
def kvOfL (line : List Char) : Option (List Char × List Char) :=
  let st := stripChars line
  if st ≠ [] ∧ st.head? ≠ some '#' ∧ st.head? ≠ some ';' ∧ st.contains '=' then
    some (stripChars (st.takeWhile (· ≠ '=')), stripChars ((st.dropWhile (· ≠ '=')).drop 1))
  else none

/-- The `old_values` dictionary: every key/value line of the old content,
key lower-cased, assignments in line order (later lines shadow earlier
ones on lookup). -/
def ovL (old : List Char) : List (List Char × List Char) :=
  (pySplitlinesL old).filterMap (fun ln => (kvOfL ln).map (fun kv => (lowerChars kv.1, kv.2)))

/-- One iteration of the `_merge_ini_settings` rewrite loop: a key line
whose lower-cased key is bound in `ov` to a different value is replaced by
`f"{key_stripped} = {old_val}\n"` (counting 1); every other line is kept
verbatim. -/
def mergeLineL (ov : List (List Char × List Char)) (line : List Char) : List Char × Nat :=
  match kvOfL line with
  | some (k, v) =>
    match lastVal ov (lowerChars k) with
    | some w => if w ≠ v then (k ++ [' ', '=', ' '] ++ w ++ ['\n'], 1) else (line, 0)
    | none => (line, 0)
  | none => (line, 0)

/-- `_merge_ini_settings(new_ini_path, old_data)` on the new file's current
content and the old snapshot: returns the content written back (`none`
when the file is not rewritten — empty old dictionary or no changed line)
together with the returned count of carried-over key lines. -/
def merge_ini_settings (newContent oldData : String) : Option String × Nat :=
  let ov := ovL oldData.data
  if ov = [] then (none, 0)
  else
    let lines := pyReadlinesL newContent.data
    let merged := lines.map (fun l => (mergeLineL ov l).1)
    let changed := (lines.map (fun l => (mergeLineL ov l).2)).sum
    if changed ≠ 0 then (some ⟨joinL merged⟩, changed) else (none, changed)

/-- Content of the new INI file after `_merge_ini_settings` ran. -/
def mergeFinal (newContent oldData : String) : String :=
  match (merge_ini_settings newContent oldData).1 with
  | some c => c
  | none => newContent

/-- Count returned by `_merge_ini_settings`. -/
def mergeCount (newContent oldData : String) : Nat :=
  (merge_ini_settings newContent oldData).2

/-- Does the merge loop carry an old value into this line? (its key is
bound in the old dictionary to a value different from the line's own). -/
def lineCarries (ov : List (List Char × List Char)) (l : List Char) : Bool :=
  match kvOfL l with
  | some (k, v) =>
    match lastVal ov (lowerChars k) with
    | some w => w ≠ v
    | none => false
  | none => false

theorem mergeLineL_none (ov : List (List Char × List Char)) (l : List Char)
    (h : kvOfL l = none) : mergeLineL ov l = (l, 0) := by
  unfold mergeLineL
  rw [h]

theorem mergeLineL_skip (ov : List (List Char × List Char)) (l k v : List Char)
    (hkv : kvOfL l = some (k, v)) (hlv : lastVal ov (lowerChars k) = none) :
    mergeLineL ov l = (l, 0) := by
  unfold mergeLineL
  rw [hkv]
  dsimp only
  rw [hlv]

theorem mergeLineL_hit (ov : List (List Char × List Char)) (l k v w : List Char)
    (hkv : kvOfL l = some (k, v)) (hlv : lastVal ov (lowerChars k) = some w) :
    mergeLineL ov l =
      (if w ≠ v then (k ++ [' ', '=', ' '] ++ w ++ ['\n'], 1) else (l, 0)) := by
  unfold mergeLineL
  rw [hkv]
  dsimp only
  rw [hlv]

theorem lineCarries_none (ov : List (List Char × List Char)) (l : List Char)
    (h : kvOfL l = none) : lineCarries ov l = false := by
  unfold lineCarries
  rw [h]

theorem lineCarries_skip (ov : List (List Char × List Char)) (l k v : List Char)
    (hkv : kvOfL l = some (k, v)) (hlv : lastVal ov (lowerChars k) = none) :
    lineCarries ov l = false := by
  unfold lineCarries
  rw [hkv]
  dsimp only
  rw [hlv]

theorem lineCarries_hit (ov : List (List Char × List Char)) (l k v w : List Char)
    (hkv : kvOfL l = some (k, v)) (hlv : lastVal ov (lowerChars k) = some w) :
    lineCarries ov l = decide (w ≠ v) := by
  unfold lineCarries
  rw [hkv]
  dsimp only
  rw [hlv]

theorem mergeLineL_snd (ov : List (List Char × List Char)) (l : List Char) :
    (mergeLineL ov l).2 = if lineCarries ov l then 1 else 0 := by
  cases hkv : kvOfL l with
  | none => rw [mergeLineL_none ov l hkv, lineCarries_none ov l hkv]; rfl
  | some kv =>
    obtain ⟨k, v⟩ := kv
    cases hlv : lastVal ov (lowerChars k) with
    | none => rw [mergeLineL_skip ov l k v hkv hlv, lineCarries_skip ov l k v hkv hlv]; rfl
    | some w =>
      rw [mergeLineL_hit ov l k v w hkv hlv, lineCarries_hit ov l k v w hkv hlv]
      by_cases hwv : w = v
      · simp [hwv]
      · simp [hwv]

theorem sum_mergeLineL_snd (ov : List (List Char × List Char)) :
    ∀ ls : List (List Char),
      ((ls.map (fun l => (mergeLineL ov l).2)).sum = ls.countP (lineCarries ov)) := by
  intro ls
  induction ls with
  | nil => rfl
  | cons l t ih =>
    rw [List.map_cons, List.sum_cons, List.countP_cons, ih, mergeLineL_snd]
    by_cases hc : lineCarries ov l = true
    · simp [hc, Nat.add_comm]
    · simp only [Bool.not_eq_true] at hc
      simp [hc]

theorem mergeCount_eq (newContent oldData : String) :
    mergeCount newContent oldData =
      (if ovL oldData.data = [] then 0
       else (pyReadlinesL newContent.data).countP (lineCarries (ovL oldData.data))) := by
  unfold mergeCount merge_ini_settings
  by_cases hov : ovL oldData.data = []
  · simp [hov]
  · simp only [hov, if_false]
    split <;> exact sum_mergeLineL_snd _ _

theorem mergeFinal_eq (newContent oldData : String) :
    mergeFinal newContent oldData =
      (if mergeCount newContent oldData = 0 then newContent
       else ⟨joinL ((pyReadlinesL newContent.data).map
              (fun l => (mergeLineL (ovL oldData.data) l).1))⟩) := by
  unfold mergeFinal mergeCount merge_ini_settings
  by_cases hov : ovL oldData.data = []
  · simp [hov]
  · simp only [hov, if_false]
    by_cases hch : ((pyReadlinesL newContent.data).map
        (fun l => (mergeLineL (ovL oldData.data) l).2)).sum = 0
    · simp [hch]
    · simp [hch]

/-- C3: the merge step replaces exactly the key lines of the new file whose
key (matched case-insensitively) is bound in the old snapshot to a
different value — writing that old value — returns the number of such
lines, and leaves every other line (in particular every key present only
in the new file) untouched; merging old `volume=7` into new `volume=5`
writes a file whose `volume` key has the value `7`, with a count of 1. -/
theorem merge_ini_spec :
    (∀ (ov : List (List Char × List Char)) (l k v w : List Char),
      kvOfL l = some (k, v) → lastVal ov (lowerChars k) = some w → w ≠ v →
      mergeLineL ov l = (k ++ [' ', '=', ' '] ++ w ++ ['\n'], 1)) ∧
    (∀ (ov : List (List Char × List Char)) (l k v : List Char),
      kvOfL l = some (k, v) →
      lastVal ov (lowerChars k) = some v ∨ lastVal ov (lowerChars k) = none →
      mergeLineL ov l = (l, 0)) ∧
    (∀ (ov : List (List Char × List Char)) (l : List Char),
      kvOfL l = none → mergeLineL ov l = (l, 0)) ∧
    (∀ newContent oldData : String,
      mergeCount newContent oldData =
        (if ovL oldData.data = [] then 0
         else (pyReadlinesL newContent.data).countP (lineCarries (ovL oldData.data))) ∧
      mergeFinal newContent oldData =
        (if mergeCount newContent oldData = 0 then newContent
         else ⟨joinL ((pyReadlinesL newContent.data).map
                (fun l => (mergeLineL (ovL oldData.data) l).1))⟩)) ∧
    merge_ini_settings "volume=5\n" "volume=7" = (some "volume = 7\n", 1) ∧
    lastVal (ovL ("volume = 7\n" : String).data) ("volume".data) = some ("7".data) := by
  refine ⟨?_, ?_, ?_, ?_, rfl, rfl⟩
  · intro ov l k v w hkv hlv hwv
    rw [mergeLineL_hit ov l k v w hkv hlv]
    simp [hwv]
  · intro ov l k v hkv hlv
    rcases hlv with hlv | hlv
    · rw [mergeLineL_hit ov l k v v hkv hlv]
      simp
    · exact mergeLineL_skip ov l k v hkv hlv
  · intro ov l hkv
    exact mergeLineL_none ov l hkv
  · intro nc od
    exact ⟨mergeCount_eq nc od, mergeFinal_eq nc od⟩

theorem merge_ini_spec_witness :
    mergeLineL [("volume".data, "7".data)] ("volume=5\n".data) =
      ("volume".data ++ [' ', '=', ' '] ++ "7".data ++ ['\n'], 1) :=
  merge_ini_spec.1 [("volume".data, "7".data)] ("volume=5\n".data)
    "volume".data "5".data "7".data rfl rfl (by decide)

/-- C10: when the merge carries over no key (count 0) the new file is not
rewritten at all — its content is left exactly as extracted — and the file
is opened for writing precisely when at least one key line changed. -/
theorem merge_no_rewrite_when_unchanged :
    ∀ newContent oldData : String,
      ((merge_ini_settings newContent oldData).2 = 0 →
        (merge_ini_settings newContent oldData).1 = none ∧
        mergeFinal newContent oldData = newContent) ∧
      ((merge_ini_settings newContent oldData).1.isSome = true ↔
        0 < (merge_ini_settings newContent oldData).2) := by
  intro nc od
  have hkey : ∀ r : Option String × Nat, r = merge_ini_settings nc od →
      (r.2 = 0 → r.1 = none) ∧ (r.1.isSome = true ↔ 0 < r.2) := by
    intro r hr
    unfold merge_ini_settings at hr
    by_cases hov : ovL od.data = []
    · rw [if_pos hov] at hr
      subst hr
      exact ⟨fun _ => rfl, by simp⟩
    · rw [if_neg hov] at hr
      dsimp only at hr
      split at hr
      · next hch =>
        subst hr
        exact ⟨fun h0 => absurd h0 hch, by simpa using Nat.pos_of_ne_zero hch⟩
      · next hch =>
        subst hr
        simp only [ne_eq, not_not] at hch
        exact ⟨fun _ => rfl, by simp [hch]⟩
  obtain ⟨h1, h2⟩ := hkey (merge_ini_settings nc od) rfl
  refine ⟨fun h0 => ⟨h1 h0, ?_⟩, h2⟩
  unfold mergeFinal
  rw [h1 h0]

theorem merge_no_rewrite_when_unchanged_witness :
    (merge_ini_settings "a=1\n" "a=1\nb=2").1 = none ∧
    mergeFinal "a=1\n" "a=1\nb=2" = "a=1\n" :=
  (merge_no_rewrite_when_unchanged "a=1\n" "a=1\nb=2").1 (by decide)

/-! ### Partial INI write (`ini_parser.save_ini_settings`) -/

/-- Key of a line the codec is willing to rewrite: the stripped line must
be nonempty, start with neither `;` nor `[`, and contain `=`; the key is
the stripped text before the first `=`. -/
def saveKeyOf (raw : List Char) : Option String :=
  let st := stripChars raw
  if st ≠ [] ∧ st.head? ≠ some ';' ∧ st.head? ≠ some '[' ∧ st.contains '=' then
    some ⟨stripChars (st.takeWhile (· ≠ '='))⟩
  else none

/-- One iteration of the `save_ini_settings` loop: a rewritable line whose
key is present in the update mapping is rebuilt as
`f"{indent}{key} = {value}\n"`; every other line is emitted verbatim. -/
def save_ini_line (sd : List (String × String)) (raw : List Char) : List Char :=
  match saveKeyOf raw with
  | some key =>
    match lastVal sd key with
    | some v => indentChars raw ++ key.data ++ [' ', '=', ' '] ++ v.data ++ ['\n']
    | none => raw
  | none => raw

/-- `save_ini_settings(file_path, settings_dict)`: content written back
(the update mapping is modelled as an association list with last-binding
lookup, i.e. a Python `dict`). -/
def save_ini_settings (content : String) (sd : List (String × String)) : String :=
  ⟨joinL ((pyReadlinesL content.data).map (save_ini_line sd))⟩

/-- C6: the codec's partial write is strictly line-for-line — the output is
the concatenation of one image per input line, so no key is ever appended —
where a line whose parsed key is present in the mapping is rebuilt from its
own indentation, its own key and the mapped value, and every other line
(comments starting with `;`, section headers starting with `[`, blank or
`=`-free lines, and key lines whose key is absent from the mapping) is
emitted byte-for-byte identical. -/
theorem save_ini_frame :
    (∀ (content : String) (sd : List (String × String)),
      save_ini_settings content sd =
        ⟨joinL ((pyReadlinesL content.data).map (save_ini_line sd))⟩ ∧
      ((pyReadlinesL content.data).map (save_ini_line sd)).length =
        (pyReadlinesL content.data).length) ∧
    (∀ (sd : List (String × String)) (raw : List Char) (key v : String),
      saveKeyOf raw = some key → lastVal sd key = some v →
      save_ini_line sd raw = indentChars raw ++ key.data ++ [' ', '=', ' '] ++ v.data ++ ['\n']) ∧
    (∀ (sd : List (String × String)) (raw : List Char) (key : String),
      saveKeyOf raw = some key → lastVal sd key = none →
      save_ini_line sd raw = raw) ∧
    (∀ (sd : List (String × String)) (raw : List Char),
      saveKeyOf raw = none → save_ini_line sd raw = raw) := by
  refine ⟨fun content sd => ⟨rfl, List.length_map _ _⟩, ?_, ?_, ?_⟩
  · intro sd raw key v hk hv
    unfold save_ini_line
    rw [hk]
    dsimp only
    rw [hv]
  · intro sd raw key hk hv
    unfold save_ini_line
    rw [hk]
    dsimp only
    rw [hv]
  · intro sd raw hk
    unfold save_ini_line
    rw [hk]

theorem save_ini_frame_witness :
    save_ini_line [("volume", "9")] ("  volume = 5\n".data) =
      indentChars ("  volume = 5\n".data) ++ ("volume" : String).data ++
        [' ', '=', ' '] ++ ("9" : String).data ++ ['\n'] :=
  save_ini_frame.2.1 [("volume", "9")] ("  volume = 5\n".data) "volume" "9" rfl rfl

/-! ### Option-set extraction and field inference
(`ini_parser.extract_options_from_comment`, `extract_range_from_comment`,
`infer_field_meta`)

The regular expressions of the source are modelled by explicit scanners
with Python `re` semantics (leftmost match, greedy quantifiers except the
lazy label group, `findall` restarting after each non-overlapping match). -/

/-- Leftmost-match search: try the matcher at every suffix. -/
def scanFirst {α : Type} (p : List Char → Option α) : List Char → Option α
  | [] => p []
  | l@(_ :: t) =>
    match p l with
    | some a => some a
    | none => scanFirst p t

/-- Does any suffix satisfy the matcher? (`re.search` used as a test). -/
def scanAny (p : List Char → Bool) : List Char → Bool
  | [] => p []
  | l@(_ :: t) => p l ∨ scanAny p t

/-- Numeric value of a digit run (`int` on a `\d+` capture). -/
def natDigits (l : List Char) : Nat :=
  l.foldl (fun a c => a * 10 + (c.toNat - '0'.toNat)) 0

/-- Match of `(\d+)\s*=\s*` anchored at this position
(the `opts_start` search of `extract_options_from_comment`). -/
def matchNumEqAt (l : List Char) : Bool :=
  let d := l.takeWhile Char.isDigit
  d ≠ [] ∧ ((l.dropWhile Char.isDigit).dropWhile pyWs).head? = some '='

/-- `text[opts_start.start():]` — the suffix at the first `(\d+)\s*=\s*`. -/
def optsTextSuffix (l : List Char) : Option (List Char) :=
  scanFirst (fun s => if matchNumEqAt s then some s else none) l

/-- `re.match(r'(\d+)\s*=\s*(.+)', part.strip())` together with the label
clean-up (strip, then `rstrip(')')` when the label ends with `)` without
containing `(`). -/
def partOpt (part : List Char) : Option (String × String) :=
  let p := stripChars part
  let d := p.takeWhile Char.isDigit
  if d = [] then none
  else
    match (p.dropWhile Char.isDigit).dropWhile pyWs with
    | '=' :: r3 =>
      let lab := ((r3.dropWhile pyWs).takeWhile (· ≠ '\n'))
      if lab = [] then none
      else
        let lab2 := stripChars lab
        let lab3 :=
          if lab2.getLast? = some ')' ∧ ¬ lab2.contains '(' then
            (lab2.reverse.dropWhile (· = ')')).reverse
          else lab2
        some (⟨d⟩, ⟨lab3⟩)
    | _ => none

/-- The pipe-delimited candidate option list: present when `opts_start`
matched and `re.split(r'\s*\|\s*', opts_text)` produced at least two
pieces; the `\s*` padding of the split separator is absorbed by the
`strip` each piece undergoes in `partOpt`. -/
def pipeOptsOf (l : List Char) : Option (List (String × String)) :=
  match optsTextSuffix l with
  | some ot =>
    let parts := splitOnCharL '|' ot
    if 2 ≤ parts.length then some (parts.filterMap partOpt) else none
  | none => none

/-- `sorted(vals)[-1] - sorted(vals)[0]` for a nonempty value list. -/
def valsRange (vs : List Nat) : Nat :=
  vs.foldr max 0 -
    (match vs with
     | [] => 0
     | h :: t => t.foldr min h)

/-- Values of an option list (`int(o["value"])`). -/
def optVals (opts : List (String × String)) : List Nat :=
  opts.map (fun o => natDigits o.1.data)

/-- Character class `[A-Za-z_ ()\-]` of the space-delimited label. -/
def labelClassC (c : Char) : Bool :=
  c.isAlpha ∨ c = '_' ∨ c = ' ' ∨ c = '(' ∨ c = ')' ∨ c = '-'

/-- The lazy label tail `[A-Za-z_ ()\-]*?` followed by the terminator
`(?:\s{2,}|\s*$)`: at each length, first try a run of at least two
whitespace characters (consumed greedily), then end-of-input; otherwise
extend the label by one class character.  Returns the label (reversed
accumulator) and the rest of the input after the match. -/
def lazyLabel : List Char → List Char → Option (List Char × List Char)
  | labRev, [] => some (labRev.reverse, [])
  | labRev, rest@(c :: t) =>
    if 2 ≤ (rest.takeWhile pyWs).length then some (labRev.reverse, rest.dropWhile pyWs)
    else if rest.dropWhile pyWs = [] then some (labRev.reverse, [])
    else if labelClassC c then lazyLabel (c :: labRev) t
    else none

/-- One anchored match of
`(\d+)\s*=\s*([A-Za-z][A-Za-z_ ()\-]*?)(?:\s{2,}|\s*$)`, returning the two
captures and the remaining input. -/
def spaceMatchAt (l : List Char) : Option ((String × String) × List Char) :=
  let d := l.takeWhile Char.isDigit
  if d = [] then none
  else
    match (l.dropWhile Char.isDigit).dropWhile pyWs with
    | '=' :: r2 =>
      match r2.dropWhile pyWs with
      | c :: t =>
        if c.isAlpha then
          match lazyLabel [c] t with
          | some (lab, rest) => some (((⟨d⟩ : String), (⟨lab⟩ : String)), rest)
          | none => none
        else none
      | [] => none
    | _ => none

/-- `re.findall` for the space-delimited pattern: scan left to right,
restarting after each match; the fuel is the input length (every match
consumes at least one character). -/
def spaceFindAll : Nat → List Char → List (String × String)
  | 0, _ => []
  | _ + 1, [] => []
  | fuel + 1, l@(_ :: t) =>
    match spaceMatchAt l with
    | some (tok, rest) => tok :: spaceFindAll fuel rest
    | none => spaceFindAll fuel t

/-- All space-delimited `N = Label` matches of the second branch. -/
def spaceMatches (l : List Char) : List (String × String) :=
  spaceFindAll l.length l

/-- The second (space-delimited) branch of `extract_options_from_comment`:
accepted when there are at least two matches and the value span is at most
the number of matches. -/
def spaceAcceptOf (l : List Char) : Option (List (String × String)) :=
  if 2 ≤ (spaceMatches l).length ∧
      valsRange ((spaceMatches l).map (fun m => natDigits m.1.data)) ≤ (spaceMatches l).length then
    some ((spaceMatches l).map (fun m => (pyStrip m.1, pyStrip m.2)))
  else none

/-- `extract_options_from_comment(text)`: the pipe-delimited branch accepts
at least 3 options, or exactly 2 whose values differ by at most 2;
otherwise control falls through to the space-delimited branch. -/
def extract_options_from_comment (text : String) : Option (List (String × String)) :=
  match pipeOptsOf text.data with
  | some opts =>
    if 3 ≤ opts.length then some opts
    else if opts.length = 2 ∧ valsRange (optVals opts) ≤ 2 then some opts
    else spaceAcceptOf text.data
  | none => spaceAcceptOf text.data

/-- ASCII `\w`. -/
def isWordChar (c : Char) : Bool := c.isAlphanum ∨ c = '_'

/-- Anchored match of `(?:between|from)\s+(\d+)\s+(?:and|to)\s+(\d+)`
(applied to lower-cased text — the `re.IGNORECASE` search). -/
def rangeScan1At (l : List Char) : Option (Int × Int) :=
  let afterKw : Option (List Char) :=
    if startsL l ("between".data) then some (l.drop 7)
    else if startsL l ("from".data) then some (l.drop 4)
    else none
  match afterKw with
  | none => none
  | some r0 =>
    if r0.takeWhile pyWs = [] then none
    else
      let r1 := r0.dropWhile pyWs
      let d1 := r1.takeWhile Char.isDigit
      if d1 = [] then none
      else
        let r2 := r1.dropWhile Char.isDigit
        if r2.takeWhile pyWs = [] then none
        else
          let r3 := r2.dropWhile pyWs
          let afterMid : Option (List Char) :=
            if startsL r3 ("and".data) then some (r3.drop 3)
            else if startsL r3 ("to".data) then some (r3.drop 2)
            else none
          match afterMid with
          | none => none
          | some r4 =>
            if r4.takeWhile pyWs = [] then none
            else
              let d2 := (r4.dropWhile pyWs).takeWhile Char.isDigit
              if d2 = [] then none
              else some ((natDigits d1 : Int), (natDigits d2 : Int))

/-- Anchored match of `\((\d+)\s*=\s*\w+\s*\|\s*(\d+)\s*=\s*\w+`. -/
def rangeScan2At (l : List Char) : Option (Int × Int) :=
  match l with
  | '(' :: r0 =>
    let d1 := r0.takeWhile Char.isDigit
    if d1 = [] then none
    else
      match (r0.dropWhile Char.isDigit).dropWhile pyWs with
      | '=' :: r2 =>
        let r3 := r2.dropWhile pyWs
        if r3.takeWhile isWordChar = [] then none
        else
          match (r3.dropWhile isWordChar).dropWhile pyWs with
          | '|' :: r5 =>
            let r6 := r5.dropWhile pyWs
            let d2 := r6.takeWhile Char.isDigit
            if d2 = [] then none
            else
              match (r6.dropWhile Char.isDigit).dropWhile pyWs with
              | '=' :: r8 =>
                if (r8.dropWhile pyWs).takeWhile isWordChar = [] then none
                else some ((natDigits d1 : Int), (natDigits d2 : Int))
              | _ => none
          | _ => none
      | _ => none
  | _ => none

/-- `extract_range_from_comment(text)`. -/
def extract_range_from_comment (text : String) : Option Int × Option Int :=
  match scanFirst rangeScan1At (lowerChars text.data) with
  | some ab => (some ab.1, some ab.2)
  | none =>
    match scanFirst rangeScan2At text.data with
    | some lohi => if lohi.2 - lohi.1 > 2 then (some lohi.1, some lohi.2) else (none, none)
    | none => (none, none)

/-- Anchored match of `(if enabled|if set to 1|0\s*=\s*false)` on
lower-cased text. -/
def boolPhraseAt (l : List Char) : Bool :=
  startsL l ("if enabled".data) || startsL l ("if set to 1".data) ||
  (match l with
   | '0' :: r0 =>
     match r0.dropWhile pyWs with
     | '=' :: r1 => startsL (r1.dropWhile pyWs) ("false".data)
     | _ => false
   | _ => false)

/-- The boolean-phrasing `re.search` of `infer_field_meta`. -/
def containsBoolPhrase (text : String) : Bool :=
  scanAny boolPhraseAt (lowerChars text.data)

/-- `str.isdigit()` (ASCII). -/
def pyIsDigit (l : List Char) : Bool := l ≠ [] ∧ l.all Char.isDigit

/-- `"password" in key.lower()`. -/
def containsPassword (key : String) : Bool :=
  scanAny (fun l => startsL l ("password".data)) (lowerChars key.data)

/-- `infer_field_meta(key, value, description)`:
`(field_type, options, low, high)`. -/
def infer_field_meta (key value description : String) :
    String × Option (List (String × String)) × Option Int × Option Int :=
  let options := if description ≠ "" then extract_options_from_comment description else none
  match options with
  | some o => ("select", some o, none, none)
  | none =>
    if description ≠ "" ∧ (stripChars value.data = ['0'] ∨ stripChars value.data = ['1']) ∧
        containsBoolPhrase description = true then
      ("select", some [("0", "Disabled"), ("1", "Enabled")], none, none)
    else
      let lh := if description ≠ "" then extract_range_from_comment description else (none, none)
      if pyIsDigit ((stripChars value.data).dropWhile (· = '-')) then
        ("number", none, lh.1, lh.2)
      else if containsPassword key then
        ("text", none, none, none)
      else
        ("text", none, none, none)

/-- C9 counterexample: the comment `"0 = Off  1 = On  9 = Max"` is a
space-delimited run of three `N = Label` tokens — so by the claim it should
be accepted as an enumerated option set — but the space-delimited branch
additionally requires the value span (9) to be at most the number of
matches (3), and extraction returns no options. -/
theorem options_space_run_counterexample :
    (spaceMatches ("0 = Off  1 = On  9 = Max" : String).data).length = 3 ∧
    extract_options_from_comment "0 = Off  1 = On  9 = Max" = none := by
  exact ⟨rfl, rfl⟩

/-- C9 (amended): extraction accepts the pipe-delimited candidate set iff
it yields at least 3 options or exactly 2 whose values differ by at most 2;
otherwise it falls through to the space-delimited run, accepted iff it has
at least 2 matches and their value span is at most the number of matches
(a strictly different acceptance test); whenever options are accepted,
field-type inference returns type `"select"` with exactly those options. -/
theorem options_acceptance_spec :
    (∀ (text : String) (o : List (String × String)),
      extract_options_from_comment text = some o ↔
        ((∃ opts, pipeOptsOf text.data = some opts ∧ opts = o ∧
            (3 ≤ opts.length ∨ (opts.length = 2 ∧ valsRange (optVals opts) ≤ 2))) ∨
          ((∀ opts, pipeOptsOf text.data = some opts →
              ¬(3 ≤ opts.length ∨ (opts.length = 2 ∧ valsRange (optVals opts) ≤ 2))) ∧
            2 ≤ (spaceMatches text.data).length ∧
            valsRange ((spaceMatches text.data).map (fun m => natDigits m.1.data)) ≤
              (spaceMatches text.data).length ∧
            o = (spaceMatches text.data).map (fun m => (pyStrip m.1, pyStrip m.2))))) ∧
    (∀ key value description : String, description ≠ "" →
      ∀ o, extract_options_from_comment description = some o →
        infer_field_meta key value description = ("select", some o, none, none)) := by
  constructor
  · intro text o
    unfold extract_options_from_comment
    cases hp : pipeOptsOf text.data with
    | some opts =>
      dsimp only
      by_cases h3 : 3 ≤ opts.length
      · rw [if_pos h3]
        constructor
        · intro h
          injection h with h
          exact Or.inl ⟨opts, rfl, h, Or.inl h3⟩
        · rintro (⟨opts2, ho2, hoo, _⟩ | ⟨hno, _⟩)
          · injection ho2 with ho2
            rw [← ho2] at hoo
            rw [hoo]
          · exact absurd (Or.inl h3) (hno opts rfl)
      · rw [if_neg h3]
        by_cases h2 : opts.length = 2 ∧ valsRange (optVals opts) ≤ 2
        · rw [if_pos h2]
          constructor
          · intro h
            injection h with h
            exact Or.inl ⟨opts, rfl, h, Or.inr h2⟩
          · rintro (⟨opts2, ho2, hoo, _⟩ | ⟨hno, _⟩)
            · injection ho2 with ho2
              rw [← ho2] at hoo
              rw [hoo]
            · exact absurd (Or.inr h2) (hno opts rfl)
        · rw [if_neg h2]
          unfold spaceAcceptOf
          constructor
          · intro h
            split at h
            · next hcond =>
              injection h with h
              refine Or.inr ⟨?_, hcond.1, hcond.2, h.symm⟩
              intro opts2 ho2
              injection ho2 with ho2
              subst ho2
              rintro (hx | hx)
              · exact h3 hx
              · exact h2 hx
            · cases h
          · rintro (⟨opts2, ho2, hoo, hacc⟩ | ⟨_, hlen, hrange, heq⟩)
            · injection ho2 with ho2
              subst ho2
              rcases hacc with hx | hx
              · exact absurd hx h3
              · exact absurd hx h2
            · rw [if_pos ⟨hlen, hrange⟩, heq]
    | none =>
      dsimp only
      unfold spaceAcceptOf
      constructor
      · intro h
        split at h
        · next hcond =>
          injection h with h
          exact Or.inr ⟨(fun opts2 ho2 => by cases ho2), hcond.1, hcond.2, h.symm⟩
        · cases h
      · rintro (⟨opts2, ho2, _, _⟩ | ⟨_, hlen, hrange, heq⟩)
        · cases ho2
        · rw [if_pos ⟨hlen, hrange⟩, heq]
  · intro key value description hd o ho
    unfold infer_field_meta
    rw [if_pos hd, ho]

theorem options_acceptance_spec_witness :
    infer_field_meta "quality" "1" "0 = Off | 1 = On | 2 = High" =
      ("select", some [("0", "Off"), ("1", "On"), ("2", "High")], none, none) :=
  options_acceptance_spec.2 "quality" "1" "0 = Off | 1 = On | 2 = High" (by decide)
    [("0", "Off"), ("1", "On"), ("2", "High")] rfl

/-! ### Install workflow control flow (`mod_installer.install_mod_from_zip`)

The phase structure and failure semantics of `install_mod_from_zip`,
parameterized by failure oracles: per-file failures during backup
(unreadable INI) and cleaning (undeletable entry) are swallowed by inner
`except` blocks, so they enter the flow only through the counts of
successfully processed files; an extraction exception is the `error` case
of `extractOutcome`; per-file reconcile failures only lower the
merged/restored counts. -/

/-- One `{"step": ..., "success": ..., "message": ...}` log entry. -/
structure InstallStep where
  step : String
  success : Bool
  message : String
deriving DecidableEq

/-- The structured result dictionary of `install_mod_from_zip`. -/
structure InstallResult where
  success : Bool
  message : String
  steps : List InstallStep
  version : Option String
deriving DecidableEq

/-- `", ".join`-style concatenation. -/
def joinWith (sep : String) : List String → String
  | [] => ""
  | [x] => x
  | x :: t => x ++ sep ++ joinWith sep t

/-- Control-flow skeleton of `install_mod_from_zip`.  `iniTotal` INI files
exist of which `iniReadFailed` fail to read during backup; `cleanTotal`
stale entries exist of which `cleanFailed` fail to delete; `version` is the
token `_extract_version_from_filename` finds in the archive name. -/
def install_flow (zipPath : String) (archiveFound : Bool) (ext : String)
    (isZipSig has7z hasRar : Bool)
    (iniTotal iniReadFailed cleanTotal cleanFailed : Nat)
    (extractOutcome : Except String Nat)
    (mergedKeys restored : Nat) (version : Option String) : InstallResult :=
  if archiveFound = false then
    ⟨false, "Archive not found: " ++ zipPath, [], none⟩
  else if ¬(isZipSig = true) ∧ ¬(ext = ".7z" ∧ has7z = true) ∧
      ¬(ext = ".rar" ∧ hasRar = true) then
    if ext = ".7z" ∧ has7z = false then
      ⟨false, "7z archive support not available (py7zr not installed)", [], none⟩
    else if ext = ".rar" ∧ hasRar = false then
      ⟨false, "RAR extraction requires WinRAR or 7-Zip to be installed", [], none⟩
    else
      ⟨false, "Unsupported archive format: " ++ ext, [], none⟩
  else
    let backed := iniTotal - iniReadFailed
    let removed := cleanTotal - cleanFailed
    let steps1 : List InstallStep :=
      [⟨"backup", true, "Backed up " ++ toString backed ++ " INI file(s)"⟩,
       ⟨"remove_old", true, "Removed " ++ toString removed ++ " old files"⟩]
    match extractOutcome with
    | Except.error e =>
      ⟨false, "Extraction failed: " ++ e, steps1 ++ [⟨"extract", false, e⟩], none⟩
    | Except.ok n =>
      let steps2 := steps1 ++ [⟨"extract", true, "Extracted " ++ toString n ++ " files"⟩]
      let msgParts :=
        (if mergedKeys ≠ 0 then ["merged " ++ toString mergedKeys ++ " setting(s)"] else []) ++
        (if restored ≠ 0 then ["restored " ++ toString restored ++ " INI(s)"] else [])
      let steps3 :=
        if msgParts ≠ [] then steps2 ++ [⟨"restore", true, "Settings: " ++ joinWith ", " msgParts⟩]
        else steps2
      ⟨true, "Installed successfully (" ++ toString n ++ " files). Settings preserved.", steps3,
       version⟩

/-- C7 counterexample: a run in which one INI file existed and its backup
read failed is indistinguishable — including the step log — from a run in
which no INI existed and nothing failed; every step entry reports success,
so the backup failure is not recorded in the step log. -/
theorem backup_failure_unrecorded :
    install_flow "m.zip" true ".zip" true false false 1 1 0 0 (Except.ok 3) 0 0 none =
      install_flow "m.zip" true ".zip" true false false 0 0 0 0 (Except.ok 3) 0 0 none ∧
    (install_flow "m.zip" true ".zip" true false false 1 1 0 0 (Except.ok 3) 0 0 none).steps =
      [⟨"backup", true, "Backed up 0 INI file(s)"⟩,
       ⟨"remove_old", true, "Removed 0 old files"⟩,
       ⟨"extract", true, "Extracted 3 files"⟩] := by
  exact ⟨rfl, rfl⟩

/-- C7 (amended): per-file failures in Backing Up or Cleaning are silently
swallowed — the run is identical to one where only the surviving files
existed, with both phases logged as successes — and do not prevent later
phases; a missing or unsupported archive returns a structured failure with
an empty step log; an Extracting failure aborts with `success = false`,
the message `"Extraction failed: ..."` and the step log accumulated up to
and including the failed extract step; with extraction succeeding the
result is successful regardless of backup, cleaning, or per-file
reconciliation failures. -/
theorem install_flow_failure_semantics :
    (∀ (zipPath ext : String) (z h7 hr : Bool) (iT iF cT cF : Nat)
        (eo : Except String Nat) (mk rs : Nat) (v : Option String),
      install_flow zipPath false ext z h7 hr iT iF cT cF eo mk rs v =
        ⟨false, "Archive not found: " ++ zipPath, [], none⟩) ∧
    (∀ (zipPath ext : String) (iT iF cT cF : Nat)
        (eo : Except String Nat) (mk rs : Nat) (v : Option String),
      (install_flow zipPath true ext false false false iT iF cT cF eo mk rs v).success = false ∧
      (install_flow zipPath true ext false false false iT iF cT cF eo mk rs v).steps = []) ∧
    (∀ (zipPath ext : String) (z h7 hr : Bool) (iT iF cT cF : Nat) (e : String)
        (mk rs : Nat) (v : Option String),
      (z = true ∨ (ext = ".7z" ∧ h7 = true) ∨ (ext = ".rar" ∧ hr = true)) →
      install_flow zipPath true ext z h7 hr iT iF cT cF (Except.error e) mk rs v =
        ⟨false, "Extraction failed: " ++ e,
         [⟨"backup", true, "Backed up " ++ toString (iT - iF) ++ " INI file(s)"⟩,
          ⟨"remove_old", true, "Removed " ++ toString (cT - cF) ++ " old files"⟩,
          ⟨"extract", false, e⟩], none⟩) ∧
    (∀ (zipPath ext : String) (z h7 hr : Bool) (iT iF cT cF n mk rs : Nat) (v : Option String),
      (z = true ∨ (ext = ".7z" ∧ h7 = true) ∨ (ext = ".rar" ∧ hr = true)) →
      (install_flow zipPath true ext z h7 hr iT iF cT cF (Except.ok n) mk rs v).success = true ∧
      install_flow zipPath true ext z h7 hr iT iF cT cF (Except.ok n) mk rs v =
        install_flow zipPath true ext z h7 hr (iT - iF) 0 (cT - cF) 0 (Except.ok n) mk rs v) := by
  have hsupp : ∀ (ext : String) (z h7 hr : Bool),
      (z = true ∨ (ext = ".7z" ∧ h7 = true) ∨ (ext = ".rar" ∧ hr = true)) →
      ¬(¬(z = true) ∧ ¬(ext = ".7z" ∧ h7 = true) ∧ ¬(ext = ".rar" ∧ hr = true)) := by
    rintro ext z h7 hr (h | h | h) ⟨n1, n2, n3⟩
    · exact n1 h
    · exact n2 h
    · exact n3 h
  refine ⟨fun _ _ _ _ _ _ _ _ _ _ _ _ _ => rfl, ?_, ?_, ?_⟩
  · intro zipPath ext iT iF cT cF eo mk rs v
    unfold install_flow
    simp only [if_neg (by simp : ¬(true = false))]
    rw [if_pos (by simp)]
    split <;> [skip; split]
    · exact ⟨rfl, rfl⟩
    · exact ⟨rfl, rfl⟩
    · exact ⟨rfl, rfl⟩
  · intro zipPath ext z h7 hr iT iF cT cF e mk rs v hs
    unfold install_flow
    rw [if_neg (by simp : ¬(true = false)), if_neg (hsupp ext z h7 hr hs)]
    rfl
  · intro zipPath ext z h7 hr iT iF cT cF n mk rs v hs
    constructor
    · unfold install_flow
      rw [if_neg (by simp : ¬(true = false)), if_neg (hsupp ext z h7 hr hs)]
    · unfold install_flow
      rw [if_neg (by simp : ¬(true = false)), if_neg (hsupp ext z h7 hr hs),
          if_neg (by simp : ¬(true = false)), if_neg (hsupp ext z h7 hr hs)]
      simp only [Nat.sub_zero]

theorem install_flow_failure_semantics_witness :
    install_flow "m.zip" true ".zip" true false false 2 0 1 0 (Except.error "bad zip") 0 0 none =
      ⟨false, "Extraction failed: bad zip",
       [⟨"backup", true, "Backed up 2 INI file(s)"⟩,
        ⟨"remove_old", true, "Removed 1 old files"⟩,
        ⟨"extract", false, "bad zip"⟩], none⟩ := by
  have h := install_flow_failure_semantics.2.2.1 "m.zip" ".zip" true false false 2 0 1 0
    "bad zip" 0 0 none (Or.inl rfl)
  exact h

/-! ### The install workflow on a target-directory filesystem
(`mod_installer.install_mod_from_zip`)

The ME3 branch of the workflow is modelled (a `target_dir` is supplied, so
`extract_target`, `scan_root` and `clean_dir` all coincide).  The
filesystem under the target directory is an association list from relative
paths (segment lists) to file contents with unique keys; `os.walk` and
`os.listdir` enumerate it in list order.  The archive is represented by
the list of in-target relative writes its extraction performs (extraction
is a deterministic function of the archive, modelled separately by
`extract_zip_writes`), and the backup timestamp is a parameter. -/

/-- A path relative to the install target. -/
abbrev FPath := List String

/-- The filesystem under the target: association list with unique keys. -/
abbrev FS := List (FPath × String)

/-- Content of the file at `p`, if present. -/
def fsGet : FS → FPath → Option String
  | [], _ => none
  | (q, c) :: t, p => if q = p then some c else fsGet t p

/-- Write (create or overwrite) the file at `p`. -/
def fsSet (fs : FS) (p : FPath) (c : String) : FS :=
  (p, c) :: fs.filter (fun e => e.1 ≠ p)

/-- Does the filename end in `.ini`? (the backup walk's filter). -/
def isIni (p : FPath) : Bool := strEnds (p.getLastD "") ".ini"

/-- Step 1, in-memory snapshot: every `.ini` file under `scan_root`,
in walk order. -/
def iniFiles (fs : FS) : List (FPath × String) := fs.filter (fun e => isIni e.1)

/-- Destination of the physical dated copy of a backed-up file:
`mod_backups/{ts}_{basename}`. -/
def backupPath (ts : String) (p : FPath) : FPath :=
  ["mod_backups", ts ++ "_" ++ p.getLastD ""]

/-- Step 1, physical dated copies written into `mod_backups/`. -/
def writeBackups (ts : String) (bk : List (FPath × String)) (fs : FS) : FS :=
  bk.foldl (fun acc e => fsSet acc (backupPath ts e.1) e.2) fs

/-- Step 2's keep condition: a top-level entry survives cleaning iff its
name ends in `.ini` or is `mod_backups` (everything below a removed
top-level directory is deleted with it). -/
def topKeep (p : FPath) : Bool := strEnds (p.headD "") ".ini" || p.headD "" = "mod_backups"

/-- Step 2: remove old files. -/
def cleanFS (fs : FS) : FS := fs.filter (fun e => topKeep e.1)

/-- Step 3: apply the archive's extraction writes in order. -/
def extractFS (ws : List (FPath × String)) (fs : FS) : FS :=
  ws.foldl (fun acc e => fsSet acc e.1 e.2) fs

/-- Step 4: for every snapshot entry, merge into the extracted file when
the destination exists (writing only when the merge changed something),
otherwise restore the snapshot bytes; accumulates the merged-keys count. -/
def reconcile (bk : List (FPath × String)) (fs : FS) : FS × Nat :=
  bk.foldl
    (fun st e =>
      match fsGet st.1 e.1 with
      | some cur =>
        match merge_ini_settings cur e.2 with
        | (some nc, n) => (fsSet st.1 e.1 nc, st.2 + n)
        | (none, n) => (st.1, st.2 + n)
      | none => (fsSet st.1 e.1 e.2, st.2))
    (fs, 0)

/-- `install_mod_from_zip` on the target filesystem: snapshot, dated
copies, clean, extract, reconcile; returns the final filesystem and the
merged-keys count reported in the `restore` step. -/
def install_mod_from_zip (fs : FS) (writes : List (FPath × String)) (ts : String) : FS × Nat :=
  let bk := iniFiles fs
  reconcile bk (extractFS writes (cleanFS (writeBackups ts bk fs)))

/-! #### Pointwise characterization of the workflow -/

theorem fsGet_cons (q : FPath) (c : String) (t : FS) (p : FPath) :
    fsGet ((q, c) :: t) p = if q = p then some c else fsGet t p := rfl

theorem lastVal_cons {α β : Type} [DecidableEq α] (a : α) (b : β) (t : List (α × β)) (k : α) :
    lastVal ((a, b) :: t) k =
      (match lastVal t k with
       | some v => some v
       | none => if a = k then some b else none) := rfl

theorem fsGet_filter_ne : ∀ (fs : FS) (p q : FPath), p ≠ q →
    fsGet (fs.filter (fun e => e.1 ≠ p)) q = fsGet fs q
  | [], _, _, _ => rfl
  | (r, c) :: t, p, q, h => by
    rw [List.filter_cons]
    by_cases hp : r = p
    · subst hp
      rw [if_neg (by simp), fsGet_cons, if_neg h]
      exact fsGet_filter_ne t r q h
    · rw [if_pos (by simpa using hp), fsGet_cons, fsGet_cons]
      by_cases hq : r = q
      · rw [if_pos hq, if_pos hq]
      · rw [if_neg hq, if_neg hq]
        exact fsGet_filter_ne t p q h

theorem fsGet_fsSet (fs : FS) (p : FPath) (c : String) (q : FPath) :
    fsGet (fsSet fs p c) q = if p = q then some c else fsGet fs q := by
  unfold fsSet
  rw [fsGet_cons]
  by_cases h : p = q
  · rw [if_pos h, if_pos h]
  · rw [if_neg h, if_neg h]
    exact fsGet_filter_ne fs p q h

theorem fsGet_foldl_set (l : List (FPath × String)) :
    ∀ (fs : FS) (q : FPath),
      fsGet (l.foldl (fun acc e => fsSet acc e.1 e.2) fs) q =
        (match lastVal l q with
         | some c => some c
         | none => fsGet fs q) := by
  induction l with
  | nil => intro fs q; rfl
  | cons e t ih =>
    intro fs q
    obtain ⟨p, c⟩ := e
    rw [List.foldl_cons, ih (fsSet fs p c) q, lastVal_cons]
    cases h : lastVal t q with
    | some v => rfl
    | none =>
      dsimp only
      rw [fsGet_fsSet]
      by_cases hpq : p = q
      · rw [if_pos hpq, if_pos hpq]
      · rw [if_neg hpq, if_neg hpq]


theorem lastVal_eq_none {α β : Type} [DecidableEq α] :
    ∀ (l : List (α × β)) (k : α), (∀ e ∈ l, e.1 ≠ k) → lastVal l k = none
  | [], _, _ => rfl
  | (a, b) :: t, k, h => by
    rw [lastVal_cons, lastVal_eq_none t k (fun e he => h e (List.mem_cons_of_mem _ he))]
    exact if_neg (h (a, b) (List.mem_cons_self _ _))

theorem lastVal_mem {α β : Type} [DecidableEq α] :
    ∀ (l : List (α × β)) (k : α) (v : β), lastVal l k = some v → (k, v) ∈ l
  | [], _, _, h => by cases h
  | (a, b) :: t, k, v, h => by
    rw [lastVal_cons] at h
    cases hl : lastVal t k with
    | some w =>
      rw [hl] at h
      injection h with h
      subst h
      exact List.mem_cons_of_mem _ (lastVal_mem t k _ hl)
    | none =>
      rw [hl] at h
      dsimp only at h
      by_cases ha : a = k
      · rw [if_pos ha] at h
        injection h with h
        subst h
        subst ha
        exact List.mem_cons_self _ _
      · rw [if_neg ha] at h
        cases h

theorem lastVal_key_mem {α β : Type} [DecidableEq α] (l : List (α × β)) (k : α) (v : β)
    (h : lastVal l k = some v) : k ∈ l.map Prod.fst := by
  have := lastVal_mem l k v h
  exact List.mem_map_of_mem Prod.fst this

theorem keysNodup_filter (fs : FS) (f : FPath × String → Bool)
    (h : (fs.map Prod.fst).Nodup) : ((fs.filter f).map Prod.fst).Nodup :=
  List.Nodup.sublist (List.Sublist.map Prod.fst (List.filter_sublist fs)) h

theorem keysNodup_fsSet (fs : FS) (p : FPath) (c : String)
    (h : (fs.map Prod.fst).Nodup) : ((fsSet fs p c).map Prod.fst).Nodup := by
  unfold fsSet
  rw [List.map_cons]
  refine List.nodup_cons.mpr ⟨?_, keysNodup_filter fs _ h⟩
  intro hmem
  obtain ⟨e, he, hefst⟩ := List.mem_map.mp hmem
  have := List.of_mem_filter he
  rw [hefst] at this
  simp at this

theorem keysNodup_foldl_set (l : List (FPath × String)) :
    ∀ fs : FS, (fs.map Prod.fst).Nodup →
      ((l.foldl (fun acc e => fsSet acc e.1 e.2) fs).map Prod.fst).Nodup := by
  induction l with
  | nil => intro fs h; exact h
  | cons e t ih =>
    intro fs h
    rw [List.foldl_cons]
    exact ih _ (keysNodup_fsSet fs e.1 e.2 h)

/-- Contribution of one snapshot entry to the merged-keys count, relative
to the post-extraction filesystem. -/
def reconContrib (g : FS) (e : FPath × String) : Nat :=
  match fsGet g e.1 with
  | some cur => mergeCount cur e.2
  | none => 0

theorem reconcile_fold (bk : List (FPath × String)) :
    ∀ (g : FS) (k : Nat), (bk.map Prod.fst).Nodup →
      (bk.foldl
        (fun st e =>
          match fsGet st.1 e.1 with
          | some cur =>
            match merge_ini_settings cur e.2 with
            | (some nc, n) => (fsSet st.1 e.1 nc, st.2 + n)
            | (none, n) => (st.1, st.2 + n)
          | none => (fsSet st.1 e.1 e.2, st.2)) (g, k)).2 =
        k + (bk.map (reconContrib g)).sum ∧
      ∀ q, fsGet (bk.foldl
        (fun st e =>
          match fsGet st.1 e.1 with
          | some cur =>
            match merge_ini_settings cur e.2 with
            | (some nc, n) => (fsSet st.1 e.1 nc, st.2 + n)
            | (none, n) => (st.1, st.2 + n)
          | none => (fsSet st.1 e.1 e.2, st.2)) (g, k)).1 q =
        (match lastVal bk q with
         | some c =>
           (match fsGet g q with
            | some cur => some (mergeFinal cur c)
            | none => some c)
         | none => fsGet g q) := by
  induction bk with
  | nil =>
    intro g k _
    exact ⟨by simp, fun q => rfl⟩
  | cons e t ih =>
    intro g k hnd
    obtain ⟨p, c⟩ := e
    have hnd2 : p ∉ t.map Prod.fst ∧ (t.map Prod.fst).Nodup := List.nodup_cons.mp hnd
    have hpnotin : p ∉ t.map Prod.fst := hnd2.1
    have hnd' : (t.map Prod.fst).Nodup := hnd2.2
    have hne : ∀ e2 ∈ t, (e2 : FPath × String).1 ≠ p := by
      intro e2 he2 hq
      exact hpnotin (hq ▸ List.mem_map_of_mem Prod.fst he2)
    rw [List.foldl_cons]
    have hstep : ∀ (st1 : FS × Nat),
        st1.2 = k + reconContrib g (p, c) →
        (∀ q, fsGet st1.1 q = if p = q then
            (match fsGet g p with
             | some cur => some (mergeFinal cur c)
             | none => some c)
          else fsGet g q) →
        ((t.foldl
          (fun st e =>
            match fsGet st.1 e.1 with
            | some cur =>
              match merge_ini_settings cur e.2 with
              | (some nc, n) => (fsSet st.1 e.1 nc, st.2 + n)
              | (none, n) => (st.1, st.2 + n)
            | none => (fsSet st.1 e.1 e.2, st.2)) st1).2 =
          k + (((p, c) :: t).map (reconContrib g)).sum ∧
        ∀ q, fsGet (t.foldl
          (fun st e =>
            match fsGet st.1 e.1 with
            | some cur =>
              match merge_ini_settings cur e.2 with
              | (some nc, n) => (fsSet st.1 e.1 nc, st.2 + n)
              | (none, n) => (st.1, st.2 + n)
            | none => (fsSet st.1 e.1 e.2, st.2)) st1).1 q =
          (match lastVal ((p, c) :: t) q with
           | some c2 =>
             (match fsGet g q with
              | some cur => some (mergeFinal cur c2)
              | none => some c2)
           | none => fsGet g q)) := by
      intro st1 hcount hget
      obtain ⟨ihc, ihg⟩ := ih st1.1 st1.2 hnd'
      have hsame : t.map (reconContrib st1.1) = t.map (reconContrib g) := by
        apply List.map_congr_left
        intro e2 he2
        unfold reconContrib
        rw [hget e2.1, if_neg (fun hh => (hne e2 he2) hh.symm)]
      constructor
      · rw [show st1 = (st1.1, st1.2) from (Prod.mk.eta).symm] at ihc ⊢
        rw [ihc, hsame, hcount]
        rw [List.map_cons, List.sum_cons]
        omega
      · intro q
        rw [show st1 = (st1.1, st1.2) from (Prod.mk.eta).symm]
        rw [ihg q, lastVal_cons]
        cases hl : lastVal t q with
        | some v =>
          dsimp only
          have hqmem : q ∈ t.map Prod.fst := lastVal_key_mem t q v hl
          have hpq : p ≠ q := fun hh => hpnotin (hh ▸ hqmem)
          rw [hget q, if_neg hpq]
        | none =>
          dsimp only
          rw [hget q]
          by_cases hpq : p = q
          · rw [if_pos hpq, if_pos hpq]
            subst hpq
            rfl
          · rw [if_neg hpq, if_neg hpq]
    cases hg : fsGet g p with
    | some cur =>
      cases hm : merge_ini_settings cur c with
      | mk o n =>
        cases o with
        | some nc =>
          refine hstep _ ?_ ?_
          · simp only [hm, reconContrib, mergeCount, hg]
          · intro q
            simp only [hm]
            rw [fsGet_fsSet]
            by_cases hpq : p = q
            · rw [if_pos hpq, if_pos hpq]
              simp only [hg, mergeFinal, hm]
            · rw [if_neg hpq, if_neg hpq]
        | none =>
          refine hstep _ ?_ ?_
          · simp only [hm, reconContrib, mergeCount, hg]
          · intro q
            simp only [hm]
            by_cases hpq : p = q
            · rw [if_pos hpq, ← hpq, hg]
              simp only [mergeFinal, hm]
            · rw [if_neg hpq]
    | none =>
      refine hstep _ ?_ ?_
      · simp only [reconContrib, hg, Nat.add_zero]
      · intro q
        rw [fsGet_fsSet]
        by_cases hpq : p = q
        · rw [if_pos hpq, if_pos hpq]
          simp only [hg]
        · rw [if_neg hpq, if_neg hpq]


theorem cleanFS_cons (p : FPath) (c : String) (t : FS) :
    cleanFS ((p, c) :: t) =
      (if topKeep p = true then (p, c) :: cleanFS t else cleanFS t) := by
  unfold cleanFS
  rw [List.filter_cons]

theorem fsGet_cleanFS : ∀ (fs : FS) (q : FPath),
    fsGet (cleanFS fs) q = if topKeep q = true then fsGet fs q else none
  | [], q => by
    by_cases h : topKeep q = true
    · rw [if_pos h]
      rfl
    · rw [if_neg h]
      rfl
  | (p, c) :: t, q => by
    rw [cleanFS_cons]
    by_cases hk : topKeep p = true
    · rw [if_pos hk, fsGet_cons]
      by_cases hpq : p = q
      · subst hpq
        rw [if_pos rfl, if_pos hk, fsGet_cons, if_pos rfl]
      · rw [if_neg hpq, fsGet_cleanFS t q]
        by_cases hq : topKeep q = true
        · rw [if_pos hq, if_pos hq, fsGet_cons, if_neg hpq]
        · rw [if_neg hq, if_neg hq]
    · rw [if_neg hk, fsGet_cleanFS t q]
      by_cases hpq : p = q
      · subst hpq
        rw [if_neg hk, if_neg hk]
      · by_cases hq : topKeep q = true
        · rw [if_pos hq, if_pos hq, fsGet_cons, if_neg hpq]
        · rw [if_neg hq, if_neg hq]

theorem fsGet_writeBackups (ts : String) (bk : List (FPath × String)) (fs : FS) (q : FPath) :
    fsGet (writeBackups ts bk fs) q =
      (match lastVal (bk.map (fun e => (backupPath ts e.1, e.2))) q with
       | some c => some c
       | none => fsGet fs q) := by
  unfold writeBackups
  rw [show bk.foldl (fun acc e => fsSet acc (backupPath ts e.1) e.2) fs =
      (bk.map (fun e => (backupPath ts e.1, e.2))).foldl (fun acc e => fsSet acc e.1 e.2) fs from
    by rw [List.foldl_map]]
  exact fsGet_foldl_set _ fs q

/-- Content at `q` after step 1 (in-memory snapshot plus dated copies). -/
def afterBackupsGet (fs : FS) (ts : String) (q : FPath) : Option String :=
  match lastVal ((iniFiles fs).map (fun e => (backupPath ts e.1, e.2))) q with
  | some c => some c
  | none => fsGet fs q

/-- Content at `q` after the clean and extract steps. -/
def postExtractGet (fs : FS) (writes : List (FPath × String)) (ts : String) (q : FPath) :
    Option String :=
  match lastVal writes q with
  | some c => some c
  | none => if topKeep q = true then afterBackupsGet fs ts q else none

/-- Content at `q` after the whole workflow. -/
def installedGet (fs : FS) (writes : List (FPath × String)) (ts : String) (q : FPath) :
    Option String :=
  match lastVal (iniFiles fs) q with
  | some c =>
    (match postExtractGet fs writes ts q with
     | some cur => some (mergeFinal cur c)
     | none => some c)
  | none => postExtractGet fs writes ts q

theorem postExtractGet_eq (fs : FS) (writes : List (FPath × String)) (ts : String) (q : FPath) :
    fsGet (extractFS writes (cleanFS (writeBackups ts (iniFiles fs) fs))) q =
      postExtractGet fs writes ts q := by
  unfold extractFS postExtractGet
  rw [fsGet_foldl_set]
  cases lastVal writes q with
  | some c => rfl
  | none =>
    dsimp only
    rw [fsGet_cleanFS]
    by_cases hk : topKeep q = true
    · rw [if_pos hk, if_pos hk]
      exact fsGet_writeBackups ts (iniFiles fs) fs q
    · rw [if_neg hk, if_neg hk]

theorem install_get (fs : FS) (writes : List (FPath × String)) (ts : String)
    (hnd : (fs.map Prod.fst).Nodup) (q : FPath) :
    fsGet (install_mod_from_zip fs writes ts).1 q = installedGet fs writes ts q := by
  have hbknd : ((iniFiles fs).map Prod.fst).Nodup := keysNodup_filter fs _ hnd
  have h := (reconcile_fold (iniFiles fs)
    (extractFS writes (cleanFS (writeBackups ts (iniFiles fs) fs))) 0 hbknd).2 q
  have hre : (install_mod_from_zip fs writes ts).1 =
      ((iniFiles fs).foldl
        (fun st e =>
          match fsGet st.1 e.1 with
          | some cur =>
            match merge_ini_settings cur e.2 with
            | (some nc, n) => (fsSet st.1 e.1 nc, st.2 + n)
            | (none, n) => (st.1, st.2 + n)
          | none => (fsSet st.1 e.1 e.2, st.2))
        (extractFS writes (cleanFS (writeBackups ts (iniFiles fs) fs)), 0)).1 := rfl
  rw [hre, h]
  unfold installedGet
  rw [← postExtractGet_eq fs writes ts q]

theorem install_count (fs : FS) (writes : List (FPath × String)) (ts : String)
    (hnd : (fs.map Prod.fst).Nodup) :
    (install_mod_from_zip fs writes ts).2 =
      ((iniFiles fs).map (fun e =>
        match postExtractGet fs writes ts e.1 with
        | some cur => mergeCount cur e.2
        | none => 0)).sum := by
  have hbknd : ((iniFiles fs).map Prod.fst).Nodup := keysNodup_filter fs _ hnd
  have h := (reconcile_fold (iniFiles fs)
    (extractFS writes (cleanFS (writeBackups ts (iniFiles fs) fs))) 0 hbknd).1
  have hre : (install_mod_from_zip fs writes ts).2 =
      ((iniFiles fs).foldl
        (fun st e =>
          match fsGet st.1 e.1 with
          | some cur =>
            match merge_ini_settings cur e.2 with
            | (some nc, n) => (fsSet st.1 e.1 nc, st.2 + n)
            | (none, n) => (st.1, st.2 + n)
          | none => (fsSet st.1 e.1 e.2, st.2))
        (extractFS writes (cleanFS (writeBackups ts (iniFiles fs) fs)), 0)).2 := rfl
  rw [hre, h, Nat.zero_add]
  apply congrArg List.sum
  apply List.map_congr_left
  intro e _
  unfold reconContrib
  rw [postExtractGet_eq fs writes ts e.1]

theorem keysNodup_install (fs : FS) (writes : List (FPath × String)) (ts : String)
    (hnd : (fs.map Prod.fst).Nodup) :
    (((install_mod_from_zip fs writes ts).1).map Prod.fst).Nodup := by
  have h1 : ((writeBackups ts (iniFiles fs) fs).map Prod.fst).Nodup := by
    unfold writeBackups
    rw [show (iniFiles fs).foldl (fun acc e => fsSet acc (backupPath ts e.1) e.2) fs =
        ((iniFiles fs).map (fun e => (backupPath ts e.1, e.2))).foldl
          (fun acc e => fsSet acc e.1 e.2) fs from by rw [List.foldl_map]]
    exact keysNodup_foldl_set _ fs hnd
  have h2 : ((cleanFS (writeBackups ts (iniFiles fs) fs)).map Prod.fst).Nodup :=
    keysNodup_filter _ _ h1
  have h3 : ((extractFS writes (cleanFS (writeBackups ts (iniFiles fs) fs))).map Prod.fst).Nodup :=
    keysNodup_foldl_set _ _ h2
  have key : ∀ (bk : List (FPath × String)) (g0 : FS) (k : Nat), (g0.map Prod.fst).Nodup →
      (((bk.foldl
        (fun st e =>
          match fsGet st.1 e.1 with
          | some cur =>
            match merge_ini_settings cur e.2 with
            | (some nc, n) => (fsSet st.1 e.1 nc, st.2 + n)
            | (none, n) => (st.1, st.2 + n)
          | none => (fsSet st.1 e.1 e.2, st.2)) ((g0, k) : FS × Nat)).1).map Prod.fst).Nodup := by
    intro bk
    induction bk with
    | nil => intro g0 k h; exact h
    | cons e t ih =>
      intro g0 k h
      rw [List.foldl_cons]
      cases hg : fsGet g0 e.1 with
      | some cur =>
        cases hm : merge_ini_settings cur e.2 with
        | mk o n =>
          cases o with
          | some nc =>
            simp only [hg, hm]
            exact ih _ _ (keysNodup_fsSet g0 e.1 nc h)
          | none =>
            simp only [hg, hm]
            exact ih _ _ h
      | none =>
        simp only [hg]
        exact ih _ _ (keysNodup_fsSet g0 e.1 e.2 h)
  exact key (iniFiles fs) _ 0 h3


theorem mem_of_fsGet : ∀ (fs : FS) (p : FPath) (c : String),
    fsGet fs p = some c → (p, c) ∈ fs
  | [], _, _, h => by cases h
  | (q, d) :: t, p, c, h => by
    rw [fsGet_cons] at h
    by_cases hqp : q = p
    · rw [if_pos hqp] at h
      injection h with h
      subst h
      subst hqp
      exact List.mem_cons_self _ _
    · rw [if_neg hqp] at h
      exact List.mem_cons_of_mem _ (mem_of_fsGet t p c h)

theorem fsGet_eq_of_mem : ∀ (fs : FS), ((fs.map Prod.fst).Nodup) →
    ∀ (p : FPath) (c : String), (p, c) ∈ fs → fsGet fs p = some c
  | [], _, _, _, h => by cases h
  | (q, d) :: t, hnd, p, c, h => by
    have hnd2 : q ∉ t.map Prod.fst ∧ (t.map Prod.fst).Nodup := List.nodup_cons.mp hnd
    rw [fsGet_cons]
    rcases List.mem_cons.mp h with h1 | h1
    · injection h1 with h1 h2
      rw [if_pos h1.symm]
      rw [h2]
    · by_cases hqp : q = p
      · exfalso
        subst hqp
        exact hnd2.1 (List.mem_map_of_mem Prod.fst h1)
      · rw [if_neg hqp]
        exact fsGet_eq_of_mem t hnd2.2 p c h1

theorem lastVal_of_mem_nodup {α β : Type} [DecidableEq α] :
    ∀ (l : List (α × β)), ((l.map Prod.fst).Nodup) →
    ∀ (k : α) (v : β), (k, v) ∈ l → lastVal l k = some v
  | [], _, _, _, h => by cases h
  | (a, b) :: t, hnd, k, v, h => by
    have hnd2 : a ∉ t.map Prod.fst ∧ (t.map Prod.fst).Nodup := List.nodup_cons.mp hnd
    rw [lastVal_cons]
    rcases List.mem_cons.mp h with h1 | h1
    · injection h1 with h1 h2
      subst h1
      subst h2
      have hnone : lastVal t k = none := by
        apply lastVal_eq_none
        intro e he hk
        exact hnd2.1 (hk ▸ List.mem_map_of_mem Prod.fst he)
      rw [hnone]
      exact if_pos rfl
    · rw [lastVal_of_mem_nodup t hnd2.2 k v h1]

/-- C8 counterexample: the target holds a customized top-level INI
`a.ini` with a duplicate key, and the archive provides nothing.  The file
survives the cleaning step, so reconciliation merges it with its own
snapshot instead of restoring it, and the written bytes differ from the
snapshot: `k=1\nk=2` becomes `k = 2\nk=2`. -/
theorem restore_fallback_counterexample :
    iniFiles [((["a.ini"] : FPath), "k=1\nk=2")] = [((["a.ini"] : FPath), "k=1\nk=2")] ∧
    fsGet (install_mod_from_zip [((["a.ini"] : FPath), "k=1\nk=2")] [] "T").1 ["a.ini"] =
      some "k = 2\nk=2" ∧
    ("k = 2\nk=2" : String) ≠ "k=1\nk=2" := by
  refine ⟨rfl, rfl, by decide⟩

/-- C8 (amended): a backed-up `.ini` file that the archive does not
provide at the same relative path and that does not survive the cleaning
step (its top-level name neither ends in `.ini` nor is `mod_backups`) is
written back byte-identically from the in-memory snapshot at its original
relative location; a backed-up file that survives cleaning is self-merged
instead, which can rewrite its bytes. -/
theorem restore_fallback_spec (fs : FS) (writes : List (FPath × String)) (ts : String)
    (hnd : (fs.map Prod.fst).Nodup) (p : FPath)
    (hini : isIni p = true)
    (hw : lastVal writes p = none)
    (hk : topKeep p = false) :
    fsGet (install_mod_from_zip fs writes ts).1 p = fsGet fs p := by
  rw [install_get fs writes ts hnd p]
  unfold installedGet postExtractGet
  rw [hw]
  dsimp only
  rw [if_neg (by simp [hk])]
  cases hl : lastVal (iniFiles fs) p with
  | some c =>
    dsimp only
    have hmem : (p, c) ∈ fs := List.mem_of_mem_filter (lastVal_mem _ _ _ hl)
    exact (fsGet_eq_of_mem fs hnd p c hmem).symm
  | none =>
    dsimp only
    cases hf : fsGet fs p with
    | none => rfl
    | some c =>
      exfalso
      have hmem : (p, c) ∈ fs := mem_of_fsGet fs p c hf
      have hmem2 : (p, c) ∈ iniFiles fs := List.mem_filter.mpr ⟨hmem, by simpa using hini⟩
      have := lastVal_of_mem_nodup (iniFiles fs) (keysNodup_filter fs _ hnd) p c hmem2
      rw [hl] at this
      cases this

theorem restore_fallback_spec_witness :
    fsGet (install_mod_from_zip [((["sub", "cfg.ini"] : FPath), "x=1")] [] "T").1
        ["sub", "cfg.ini"] =
      fsGet [((["sub", "cfg.ini"] : FPath), "x=1")] ["sub", "cfg.ini"] :=
  restore_fallback_spec [((["sub", "cfg.ini"] : FPath), "x=1")] [] "T" (by decide)
    ["sub", "cfg.ini"] (by decide) rfl (by decide)


/-! #### Properties of `strip` and the key/value line parser, used for the
idempotent-reinstall analysis -/

theorem dropWhile_head_false {α : Type} (p : α → Bool) :
    ∀ (l : List α) (c : α) (t : List α), l.dropWhile p = c :: t → p c = false
  | [], _, _, h => by cases h
  | a :: l, c, t, h => by
    by_cases ha : p a = true
    · rw [List.dropWhile_cons_of_pos ha] at h
      exact dropWhile_head_false p l c t h
    · rw [List.dropWhile_cons_of_neg ha] at h
      injection h with h1 _
      subst h1
      simpa using ha

theorem mem_of_mem_dropWhile {α : Type} (p : α → Bool) (l : List α) (c : α)
    (h : c ∈ l.dropWhile p) : c ∈ l := by
  have := List.takeWhile_append_dropWhile p l
  conv_lhs => rw [← this]
  exact List.mem_append_right _ h

theorem mem_of_mem_takeWhile {α : Type} (p : α → Bool) (l : List α) (c : α)
    (h : c ∈ l.takeWhile p) : c ∈ l := by
  have := List.takeWhile_append_dropWhile p l
  conv_lhs => rw [← this]
  exact List.mem_append_left _ h

theorem mem_takeWhile_pred {α : Type} (p : α → Bool) :
    ∀ (l : List α) (c : α), c ∈ l.takeWhile p → p c = true
  | [], c, h => by cases h
  | a :: l, c, h => by
    by_cases ha : p a = true
    · rw [List.takeWhile_cons_of_pos ha] at h
      rcases List.mem_cons.mp h with h1 | h1
      · subst h1; exact ha
      · exact mem_takeWhile_pred p l c h1
    · rw [List.takeWhile_cons_of_neg ha] at h
      cases h

theorem mem_stripChars (l : List Char) (c : Char) (h : c ∈ stripChars l) : c ∈ l := by
  unfold stripChars at h
  rw [List.mem_reverse] at h
  have h2 := mem_of_mem_dropWhile pyWs _ _ h
  rw [List.mem_reverse] at h2
  exact mem_of_mem_dropWhile pyWs _ _ h2

theorem stripChars_getLast_not_ws (l : List Char) (c : Char)
    (h : (stripChars l).getLast? = some c) : pyWs c = false := by
  unfold stripChars at h
  rw [List.getLast?_reverse] at h
  cases hd : ((l.dropWhile pyWs).reverse.dropWhile pyWs) with
  | nil => rw [hd] at h; cases h
  | cons a t =>
    rw [hd] at h
    injection h with h
    subst h
    exact dropWhile_head_false pyWs _ _ _ hd

theorem stripChars_head_not_ws (l : List Char) (c : Char)
    (h : (stripChars l).head? = some c) : pyWs c = false := by
  unfold stripChars at h
  rw [List.head?_reverse] at h
  cases hA : l.dropWhile pyWs with
  | nil =>
    rw [hA] at h
    cases h
  | cons a tA =>
    rw [hA] at h
    have haws : pyWs a = false := dropWhile_head_false pyWs l a tA hA
    have hsuffix : (a :: tA).reverse.takeWhile pyWs ++ (a :: tA).reverse.dropWhile pyWs =
        (a :: tA).reverse := List.takeWhile_append_dropWhile pyWs _
    cases hB : (a :: tA).reverse.dropWhile pyWs with
    | nil => rw [hB] at h; cases h
    | cons b tB =>
      rw [hB] at h
      rw [hB] at hsuffix
      have hlast : ((a :: tA).reverse.takeWhile pyWs ++ b :: tB).getLast? = (b :: tB).getLast? :=
        List.getLast?_append_of_ne_nil _ (by simp)
      rw [hsuffix] at hlast
      rw [List.getLast?_reverse] at hlast
      simp only [List.head?_cons] at hlast
      rw [h] at hlast
      injection hlast with h2
      subst h2
      exact haws

theorem dropWhile_stripChars (l : List Char) :
    (stripChars l).dropWhile pyWs = stripChars l := by
  cases h : stripChars l with
  | nil => rfl
  | cons c t =>
    have : pyWs c = false := stripChars_head_not_ws l c (by rw [h]; rfl)
    exact List.dropWhile_cons_of_neg (by simp [this])

theorem dropWhile_reverse_stripChars (l : List Char) :
    (stripChars l).reverse.dropWhile pyWs = (stripChars l).reverse := by
  cases h : (stripChars l).reverse with
  | nil => rfl
  | cons c t =>
    have hc : (stripChars l).getLast? = some c := by
      rw [← List.head?_reverse, h]
      rfl
    have : pyWs c = false := stripChars_getLast_not_ws l c hc
    exact List.dropWhile_cons_of_neg (by simp [this])

theorem stripChars_idem (l : List Char) : stripChars (stripChars l) = stripChars l := by
  have h0 : stripChars (stripChars l) =
      (((stripChars l).dropWhile pyWs).reverse.dropWhile pyWs).reverse := rfl
  rw [h0, dropWhile_stripChars, dropWhile_reverse_stripChars, List.reverse_reverse]

theorem dropWhile_append_of_ne_nil {α : Type} (p : α → Bool) :
    ∀ (l1 l2 : List α) (c : α) (t : List α), l1.dropWhile p = c :: t →
      (l1 ++ l2).dropWhile p = (c :: t) ++ l2
  | [], _, _, _, h => by cases h
  | a :: l1, l2, c, t, h => by
    by_cases ha : p a = true
    · rw [List.dropWhile_cons_of_pos ha] at h
      rw [List.cons_append, List.dropWhile_cons_of_pos ha]
      exact dropWhile_append_of_ne_nil p l1 l2 c t h
    · rw [List.dropWhile_cons_of_neg ha] at h
      rw [List.cons_append, List.dropWhile_cons_of_neg ha, ← h]
      rfl

theorem dropWhile_append_of_all {α : Type} (p : α → Bool) :
    ∀ (l1 l2 : List α), (∀ x ∈ l1, p x = true) →
      (l1 ++ l2).dropWhile p = l2.dropWhile p
  | [], _, _ => rfl
  | a :: l1, l2, h => by
    rw [List.cons_append, List.dropWhile_cons_of_pos (h a (List.mem_cons_self _ _))]
    exact dropWhile_append_of_all p l1 l2 (fun x hx => h x (List.mem_cons_of_mem _ hx))

theorem stripChars_append_ws (l : List Char) (c : Char) (hc : pyWs c = true) :
    stripChars (l ++ [c]) = stripChars l := by
  unfold stripChars
  cases hA : l.dropWhile pyWs with
  | nil =>
    have hall : ∀ x ∈ l, pyWs x = true := by
      rw [← List.dropWhile_eq_nil_iff]
      exact hA
    rw [dropWhile_append_of_all pyWs l [c] hall]
    rw [show List.dropWhile pyWs [c] = List.dropWhile pyWs [] from
      List.dropWhile_cons_of_pos hc]
    rfl
  | cons a tA =>
    rw [dropWhile_append_of_ne_nil pyWs l [c] a tA hA]
    rw [List.reverse_append]
    rw [show ([c] : List Char).reverse = [c] from rfl]
    rw [List.cons_append, List.nil_append,
      List.dropWhile_cons_of_pos hc]

theorem stripChars_cons_ws (l : List Char) (c : Char) (hc : pyWs c = true) :
    stripChars (c :: l) = stripChars l := by
  unfold stripChars
  rw [List.dropWhile_cons_of_pos hc]

theorem stripChars_chompNL (l : List Char) : stripChars (chompNL l) = stripChars l := by
  unfold chompNL
  by_cases h : l.getLast? = some '\n'
  · rw [if_pos h]
    have h2 : l = l.dropLast ++ ['\n'] := by
      conv_lhs => rw [← List.dropLast_append_getLast? '\n' h]
    conv_rhs => rw [h2]
    rw [stripChars_append_ws _ '\n' (by decide)]
  · rw [if_neg h]

theorem takeWhile_append_of_all {α : Type} (p : α → Bool) :
    ∀ (l1 l2 : List α), (∀ x ∈ l1, p x = true) →
      (l1 ++ l2).takeWhile p = l1 ++ l2.takeWhile p
  | [], _, _ => rfl
  | a :: l1, l2, h => by
    rw [List.cons_append, List.takeWhile_cons_of_pos (h a (List.mem_cons_self _ _)),
      takeWhile_append_of_all p l1 l2 (fun x hx => h x (List.mem_cons_of_mem _ hx)),
      List.cons_append]

theorem head?_append_of_ne_nil {α : Type} (l1 l2 : List α) (h : l1 ≠ []) :
    (l1 ++ l2).head? = l1.head? := by
  cases l1 with
  | nil => exact absurd rfl h
  | cons a t => rfl

theorem contains_of_mem (l : List Char) (c : Char) (h : c ∈ l) : l.contains c = true := by
  induction l with
  | nil => cases h
  | cons a t ih =>
    rcases List.mem_cons.mp h with h1 | h1
    · subst h1
      simp [List.contains_cons]
    · simp only [List.contains_cons, ih h1, Bool.or_true]

theorem dropWhile_pyWs_of_stripped (k : List Char) (hks : stripChars k = k) :
    k.dropWhile pyWs = k := by
  conv_lhs => rw [← hks]
  rw [dropWhile_stripChars, hks]

theorem stripChars_of_ends (l : List Char) (c d : Char)
    (hhead : l.head? = some c) (hc : pyWs c = false)
    (hlast : l.getLast? = some d) (hd : pyWs d = false) :
    stripChars l = l := by
  cases l with
  | nil => cases hhead
  | cons a t =>
    have ha : a = c := by injection hhead
    unfold stripChars
    rw [List.dropWhile_cons_of_neg (by rw [ha]; simp [hc])]
    cases hrev : (a :: t).reverse with
    | nil => simp at hrev
    | cons b r =>
      have hb : (a :: t).getLast? = some b := by
        rw [← List.head?_reverse, hrev]
        rfl
      rw [hlast] at hb
      have hbd : d = b := by injection hb
      rw [List.dropWhile_cons_of_neg (by rw [← hbd]; simp [hd]), ← hrev,
        List.reverse_reverse]

theorem getLast?_ne_none (l : List Char) (h : l ≠ []) : ∃ d, l.getLast? = some d := by
  cases hd : l.getLast? with
  | none => exact absurd (List.getLast?_eq_none_iff.mp hd) h
  | some d => exact ⟨d, rfl⟩

theorem stripped_head_not_ws (k : List Char) (hks : stripChars k = k) (c : Char)
    (hc : k.head? = some c) : pyWs c = false :=
  stripChars_head_not_ws k c (by rw [hks]; exact hc)

theorem stripped_getLast_not_ws (k : List Char) (hks : stripChars k = k) (c : Char)
    (hc : k.getLast? = some c) : pyWs c = false :=
  stripChars_getLast_not_ws k c (by rw [hks]; exact hc)

theorem stripChars_mergeline (k w : List Char)
    (hks : stripChars k = k) (hws : stripChars w = w) :
    stripChars (k ++ [' ', '=', ' '] ++ w) =
      (if k = [] then [] else k ++ [' ']) ++ '=' ::
        (if w = [] then [] else ' ' :: w) := by
  by_cases hk : k = []
  · subst hk
    by_cases hw : w = []
    · subst hw
      rfl
    · rw [if_pos rfl, if_neg hw]
      show stripChars (' ' :: ('=' :: ' ' :: w)) = [] ++ '=' :: ' ' :: w
      rw [stripChars_cons_ws _ ' ' (by decide), List.nil_append]
      obtain ⟨d, hd⟩ := getLast?_ne_none w hw
      refine stripChars_of_ends _ '=' d rfl (by decide) ?_
        (stripped_getLast_not_ws w hws d hd)
      show ((['=', ' '] : List Char) ++ w).getLast? = some d
      rw [List.getLast?_append_of_ne_nil _ hw]
      exact hd
  · rw [if_neg hk]
    obtain ⟨c, hc⟩ : ∃ c, k.head? = some c := by
      cases k with
      | nil => exact absurd rfl hk
      | cons a t => exact ⟨a, rfl⟩
    have hcws : pyWs c = false := stripped_head_not_ws k hks c hc
    by_cases hw : w = []
    · subst hw
      rw [if_pos rfl]
      have h1 : k ++ [' ', '=', ' '] ++ [] = (k ++ [' ', '=']) ++ [' '] := by
        rw [List.append_nil, List.append_assoc]
        rfl
      rw [h1, stripChars_append_ws _ ' ' (by decide)]
      have h2 : stripChars (k ++ [' ', '=']) = k ++ [' ', '='] := by
        refine stripChars_of_ends _ c '='
          (by rw [head?_append_of_ne_nil _ _ hk]; exact hc) hcws ?_ (by decide)
        rw [List.getLast?_append_of_ne_nil _ (by simp : ([' ', '='] : List Char) ≠ [])]
        rfl
      rw [h2, List.append_assoc]
      rfl
    · rw [if_neg hw]
      obtain ⟨d, hd⟩ := getLast?_ne_none w hw
      have h2 : stripChars (k ++ [' ', '=', ' '] ++ w) = k ++ [' ', '=', ' '] ++ w := by
        rw [List.append_assoc]
        refine stripChars_of_ends _ c d
          (by rw [head?_append_of_ne_nil _ _ hk]; exact hc) hcws ?_
          (stripped_getLast_not_ws w hws d hd)
        rw [List.getLast?_append_of_ne_nil _ (by simp : ([' ', '=', ' '] : List Char) ++ w ≠ []),
          List.getLast?_append_of_ne_nil _ hw]
        exact hd
      rw [h2, List.append_assoc, List.append_assoc]
      rfl

theorem kvOfL_rebuild (k w : List Char)
    (hks : stripChars k = k) (hws : stripChars w = w) (hkeq : '=' ∉ k)
    (hh1 : k.head? ≠ some '#') (hh2 : k.head? ≠ some ';') :
    kvOfL (k ++ [' ', '=', ' '] ++ w ++ ['\n']) = some (k, w) := by
  have hassoc : k ++ [' ', '=', ' '] ++ w ++ ['\n'] =
      (k ++ [' ', '=', ' '] ++ w) ++ ['\n'] := by
    rw [List.append_assoc, List.append_assoc]
  have hst : stripChars (k ++ [' ', '=', ' '] ++ w ++ ['\n']) =
      (if k = [] then [] else k ++ [' ']) ++ '=' ::
        (if w = [] then [] else ' ' :: w) := by
    rw [hassoc, stripChars_append_ws _ '\n' (by decide)]
    exact stripChars_mergeline k w hks hws
  have hkall : ∀ x ∈ k ++ [' '], (fun c => decide (c ≠ '=')) x = true := by
    intro x hx
    rcases List.mem_append.mp hx with hx | hx
    · simp only [decide_eq_true_eq]
      intro hxe
      exact hkeq (hxe ▸ hx)
    · simp only [List.mem_singleton] at hx
      subst hx
      decide
  have htake : ((if k = [] then [] else k ++ [' ']) ++ '=' ::
      (if w = [] then [] else ' ' :: w)).takeWhile (fun c => decide (c ≠ '=')) =
      (if k = [] then [] else k ++ [' ']) := by
    by_cases hk : k = []
    · rw [if_pos hk, List.nil_append, List.takeWhile_cons_of_neg (by decide)]
    · rw [if_neg hk, takeWhile_append_of_all _ _ _ hkall,
        List.takeWhile_cons_of_neg (by decide), List.append_nil]
  have hdrop : ((if k = [] then [] else k ++ [' ']) ++ '=' ::
      (if w = [] then [] else ' ' :: w)).dropWhile (fun c => decide (c ≠ '=')) =
      '=' :: (if w = [] then [] else ' ' :: w) := by
    by_cases hk : k = []
    · rw [if_pos hk, List.nil_append, List.dropWhile_cons_of_neg (by decide)]
    · rw [if_neg hk, dropWhile_append_of_all _ _ _ hkall,
        List.dropWhile_cons_of_neg (by decide)]
  have hkey : stripChars (if k = [] then [] else k ++ [' ']) = k := by
    by_cases hk : k = []
    · rw [if_pos hk, hk]
      rfl
    · rw [if_neg hk, stripChars_append_ws _ ' ' (by decide), hks]
  have hval : stripChars (if w = [] then [] else ' ' :: w) = w := by
    by_cases hw : w = []
    · rw [if_pos hw, hw]
      rfl
    · rw [if_neg hw, stripChars_cons_ws _ ' ' (by decide), hws]
  have hne : (if k = [] then [] else k ++ [' ']) ++ '=' ::
      (if w = [] then [] else ' ' :: w) ≠ [] := by
    intro hcontra
    have := congrArg List.length hcontra
    simp at this
  have hhead : ((if k = [] then [] else k ++ [' ']) ++ '=' ::
      (if w = [] then [] else ' ' :: w)).head? ≠ some '#' ∧
      ((if k = [] then [] else k ++ [' ']) ++ '=' ::
      (if w = [] then [] else ' ' :: w)).head? ≠ some ';' := by
    by_cases hk : k = []
    · rw [if_pos hk]
      exact ⟨by simp, by simp⟩
    · rw [if_neg hk]
      have hkne : k ++ [' '] ≠ [] := by simp
      rw [head?_append_of_ne_nil _ _ hkne, head?_append_of_ne_nil _ _ hk]
      exact ⟨hh1, hh2⟩
  have hcont : ((if k = [] then [] else k ++ [' ']) ++ '=' ::
      (if w = [] then [] else ' ' :: w)).contains '=' = true := by
    refine contains_of_mem _ _ ?_
    exact List.mem_append_right _ (List.mem_cons_self _ _)
  show (let st := stripChars (k ++ [' ', '=', ' '] ++ w ++ ['\n'])
    if st ≠ [] ∧ st.head? ≠ some '#' ∧ st.head? ≠ some ';' ∧ st.contains '=' then
      some (stripChars (st.takeWhile (· ≠ '=')), stripChars ((st.dropWhile (· ≠ '=')).drop 1))
    else none) = some (k, w)
  rw [hst]
  rw [if_pos ⟨hne, hhead.1, hhead.2, hcont⟩]
  rw [htake, hdrop, List.drop_one, List.tail_cons, hkey, hval]

theorem takeWhile_head? {α : Type} (p : α → Bool) (l : List α) (c : α)
    (h : (l.takeWhile p).head? = some c) : l.head? = some c := by
  cases l with
  | nil => cases h
  | cons a t =>
    by_cases ha : p a = true
    · rw [List.takeWhile_cons_of_pos ha] at h
      exact h
    · rw [List.takeWhile_cons_of_neg ha] at h
      cases h

theorem stripChars_head?_of_not_ws (q : List Char) (c : Char)
    (h : q.head? = some c) (hc : pyWs c = false) : (stripChars q).head? = some c := by
  cases q with
  | nil => cases h
  | cons a t =>
    have ha : a = c := by injection h
    unfold stripChars
    rw [List.dropWhile_cons_of_neg (by rw [ha]; simp [hc])]
    rw [List.head?_reverse]
    have hsuffix := List.takeWhile_append_dropWhile pyWs (a :: t).reverse
    cases hB : (a :: t).reverse.dropWhile pyWs with
    | nil =>
      rw [List.dropWhile_eq_nil_iff] at hB
      have h2 := hB a (by simp)
      rw [ha] at h2
      rw [h2] at hc
      cases hc
    | cons b r =>
      rw [hB] at hsuffix
      have hlast : ((a :: t).reverse.takeWhile pyWs ++ b :: r).getLast? = (b :: r).getLast? :=
        List.getLast?_append_of_ne_nil _ (by simp)
      rw [hsuffix, List.getLast?_reverse] at hlast
      simp only [List.head?_cons] at hlast
      rw [← hlast, ha]

theorem kvOfL_facts (l k v : List Char) (h : kvOfL l = some (k, v)) :
    stripChars k = k ∧ stripChars v = v ∧ '=' ∉ k ∧
      k.head? ≠ some '#' ∧ k.head? ≠ some ';' := by
  unfold kvOfL at h
  by_cases hcond : stripChars l ≠ [] ∧ (stripChars l).head? ≠ some '#' ∧
      (stripChars l).head? ≠ some ';' ∧ (stripChars l).contains '='
  · rw [if_pos hcond] at h
    injection h with h
    have hk : stripChars ((stripChars l).takeWhile (· ≠ '=')) = k := congrArg Prod.fst h
    have hv : stripChars (((stripChars l).dropWhile (· ≠ '=')).drop 1) = v :=
      congrArg Prod.snd h
    refine ⟨by rw [← hk, stripChars_idem], by rw [← hv, stripChars_idem], ?_, ?_, ?_⟩
    · intro hmem
      rw [← hk] at hmem
      have h2 := mem_takeWhile_pred _ _ _ (mem_stripChars _ _ hmem)
      simp at h2
    · intro hhash
      cases hq : ((stripChars l).takeWhile (· ≠ '=')).head? with
      | none =>
        rw [← hk] at hhash
        cases hqnil : (stripChars l).takeWhile (· ≠ '=') with
        | nil =>
          rw [hqnil] at hhash
          cases hhash
        | cons b qt =>
          rw [hqnil] at hq
          cases hq
      | some b =>
        have hstl : (stripChars l).head? = some b := takeWhile_head? _ _ _ hq
        have hbws : pyWs b = false := stripChars_head_not_ws l b hstl
        have hkh : k.head? = some b := by
          rw [← hk]
          exact stripChars_head?_of_not_ws _ b hq hbws
        rw [hkh] at hhash
        injection hhash with hb
        rw [hb] at hstl
        exact hcond.2.1 hstl
    · intro hhash
      cases hq : ((stripChars l).takeWhile (· ≠ '=')).head? with
      | none =>
        rw [← hk] at hhash
        cases hqnil : (stripChars l).takeWhile (· ≠ '=') with
        | nil =>
          rw [hqnil] at hhash
          cases hhash
        | cons b qt =>
          rw [hqnil] at hq
          cases hq
      | some b =>
        have hstl : (stripChars l).head? = some b := takeWhile_head? _ _ _ hq
        have hbws : pyWs b = false := stripChars_head_not_ws l b hstl
        have hkh : k.head? = some b := by
          rw [← hk]
          exact stripChars_head?_of_not_ws _ b hq hbws
        rw [hkh] at hhash
        injection hhash with hb
        rw [hb] at hstl
        exact hcond.2.2.1 hstl
  · rw [if_neg hcond] at h
    cases h

theorem kvOfL_chompNL (l : List Char) : kvOfL (chompNL l) = kvOfL l := by
  unfold kvOfL
  rw [stripChars_chompNL]

/-- A line produced in the middle of `readlines`: a `'\n'`-terminated chunk
with no interior newline and no carriage return. -/
def goodMid (l : List Char) : Prop :=
  ∃ c, l = c ++ ['\n'] ∧ '\n' ∉ c ∧ '\r' ∉ c

/-- The last line of `readlines`: either unterminated (nonempty, no newline)
or a terminated chunk. -/
def goodLast (l : List Char) : Prop :=
  (l ≠ [] ∧ '\n' ∉ l ∧ '\r' ∉ l) ∨ goodMid l

/-- Shape of any `readlines` output: all lines `'\n'`-terminated chunks,
except possibly the last. -/
def goodLines : List (List Char) → Prop
  | [] => True
  | [l] => goodLast l
  | l :: t => goodMid l ∧ goodLines t

theorem goodLines_cons (a : List Char) (t : List (List Char))
    (ha : goodMid a) (ht : goodLines t) : goodLines (a :: t) := by
  cases t with
  | nil => exact Or.inr ha
  | cons b u => exact ⟨ha, ht⟩

theorem univNL_no_cr : ∀ l : List Char, '\r' ∉ univNL l
  | [] => by simp [univNL]
  | [c] => by
    unfold univNL
    by_cases hc : c = '\r'
    · rw [if_pos hc]
      decide
    · rw [if_neg hc]
      simp [hc]
      intro h
      exact hc h.symm
  | c :: d :: t => by
    unfold univNL
    by_cases hc : c = '\r'
    · rw [if_pos hc]
      by_cases hd : d = '\n'
      · rw [if_pos hd]
        intro h
        rcases List.mem_cons.mp h with h1 | h1
        · cases h1
        · exact univNL_no_cr t h1
      · rw [if_neg hd]
        intro h
        rcases List.mem_cons.mp h with h1 | h1
        · cases h1
        · exact univNL_no_cr (d :: t) h1
    · rw [if_neg hc]
      intro h
      rcases List.mem_cons.mp h with h1 | h1
      · exact hc h1.symm
      · exact univNL_no_cr (d :: t) h1

theorem univNL_of_no_cr : ∀ l : List Char, '\r' ∉ l → univNL l = l
  | [], _ => rfl
  | [c], h => by
    unfold univNL
    rw [if_neg (by intro hc; exact h (by rw [hc]; exact List.mem_singleton_self _))]
  | c :: d :: t, h => by
    unfold univNL
    rw [if_neg (by intro hc; exact h (by rw [hc]; exact List.mem_cons_self _ _))]
    rw [univNL_of_no_cr (d :: t) (fun hm => h (List.mem_cons_of_mem _ hm))]

theorem skeAux_good : ∀ (l cur : List Char), '\r' ∉ l → '\r' ∉ cur → '\n' ∉ cur →
    goodLines (skeAux l cur)
  | [], cur, _, hc, hn => by
    unfold skeAux
    by_cases h : cur = []
    · rw [if_pos h]
      trivial
    · rw [if_neg h]
      exact Or.inl ⟨by simp [h], by simpa using hn, by simpa using hc⟩
  | c :: t, cur, hl, hc, hn => by
    unfold skeAux
    by_cases h : c = '\n'
    · rw [if_pos h]
      refine goodLines_cons _ _ ⟨cur.reverse, ?_, ?_, ?_⟩
        (skeAux_good t [] (fun hm => hl (List.mem_cons_of_mem _ hm)) (by simp) (by simp))
      · rw [h]
        simp
      · intro hm
        exact hn (List.mem_reverse.mp hm)
      · intro hm
        exact hc (List.mem_reverse.mp hm)
    · rw [if_neg h]
      exact skeAux_good t (c :: cur)
        (fun hm => hl (List.mem_cons_of_mem _ hm))
        (by
          intro hm
          rcases List.mem_cons.mp hm with h1 | h1
          · exact hl (by rw [← h1]; exact List.mem_cons_self _ _)
          · exact hc h1)
        (by
          intro hm
          rcases List.mem_cons.mp hm with h1 | h1
          · exact h h1.symm
          · exact hn h1)

theorem skeAux_no_nl : ∀ (l cur : List Char), '\n' ∉ l → l ≠ [] →
    skeAux l cur = [cur.reverse ++ l]
  | [], _, _, hne => absurd rfl hne
  | c :: t, cur, hl, _ => by
    unfold skeAux
    rw [if_neg (fun hc => hl (by rw [← hc]; exact List.mem_cons_self _ _))]
    by_cases ht : t = []
    · subst ht
      unfold skeAux
      rw [if_neg (by simp)]
      simp
    · rw [skeAux_no_nl t (c :: cur) (fun hm => hl (List.mem_cons_of_mem _ hm)) ht]
      simp

theorem skeAux_chunk : ∀ (c : List Char) (cur rest : List Char), '\n' ∉ c →
    skeAux (c ++ '\n' :: rest) cur = (cur.reverse ++ c ++ ['\n']) :: skeAux rest []
  | [], cur, rest, _ => by
    show skeAux ('\n' :: rest) cur = _
    conv_lhs => unfold skeAux
    rw [if_pos rfl]
    simp
  | a :: c, cur, rest, h => by
    show skeAux (a :: (c ++ '\n' :: rest)) cur = _
    conv_lhs => unfold skeAux
    rw [if_neg (fun ha => h (by rw [← ha]; exact List.mem_cons_self _ _))]
    rw [skeAux_chunk c (a :: cur) rest (fun hm => h (List.mem_cons_of_mem _ hm))]
    simp

theorem goodMid_no_cr (l : List Char) (h : goodMid l) : '\r' ∉ l := by
  obtain ⟨c, hc, _, hcr⟩ := h
  rw [hc]
  intro hm
  rcases List.mem_append.mp hm with h1 | h1
  · exact hcr h1
  · simp at h1

theorem goodLast_no_cr (l : List Char) (h : goodLast l) : '\r' ∉ l := by
  rcases h with ⟨_, _, hcr⟩ | h
  · exact hcr
  · exact goodMid_no_cr l h

theorem joinL_no_cr : ∀ ls : List (List Char), goodLines ls → '\r' ∉ joinL ls
  | [], _ => by simp [joinL]
  | [l], h => by
    show '\r' ∉ l ++ joinL []
    rw [show joinL [] = [] from rfl, List.append_nil]
    exact goodLast_no_cr l h
  | l :: m :: t, h => by
    show '\r' ∉ l ++ joinL (m :: t)
    intro hm
    rcases List.mem_append.mp hm with h1 | h1
    · exact goodMid_no_cr l h.1 h1
    · exact joinL_no_cr (m :: t) h.2 h1

theorem skeAux_joinL : ∀ ls : List (List Char), goodLines ls → skeAux (joinL ls) [] = ls
  | [], _ => rfl
  | [l], h => by
    show skeAux (l ++ joinL []) [] = [l]
    rw [show joinL [] = [] from rfl, List.append_nil]
    rcases h with ⟨hne, hnl, _⟩ | ⟨c, hc, hnl, _⟩
    · rw [skeAux_no_nl l [] hnl hne]
      simp
    · rw [hc, show c ++ ['\n'] = c ++ '\n' :: [] from rfl, skeAux_chunk c [] [] hnl]
      simp
      rfl
  | l :: m :: t, h => by
    show skeAux (l ++ joinL (m :: t)) [] = l :: m :: t
    obtain ⟨c, hc, hnl, _⟩ := h.1
    rw [hc, show (c ++ ['\n']) ++ joinL (m :: t) = c ++ '\n' :: joinL (m :: t) from by simp,
      skeAux_chunk c [] (joinL (m :: t)) hnl]
    rw [skeAux_joinL (m :: t) h.2]
    simp

theorem goodLines_readlines (x : List Char) : goodLines (pyReadlinesL x) :=
  skeAux_good (univNL x) [] (univNL_no_cr x) (by simp) (by simp)

theorem readlines_joinL (ls : List (List Char)) (h : goodLines ls) :
    pyReadlinesL (joinL ls) = ls := by
  unfold pyReadlinesL
  rw [univNL_of_no_cr _ (joinL_no_cr ls h)]
  exact skeAux_joinL ls h

theorem ovL_eq_readlines (x : List Char) :
    ovL x = (pyReadlinesL x).filterMap
      (fun l => (kvOfL l).map (fun kv => (lowerChars kv.1, kv.2))) := by
  unfold ovL pySplitlinesL
  rw [List.filterMap_map]
  refine List.filterMap_congr fun l _ => ?_
  show (kvOfL (chompNL l)).map _ = _
  rw [kvOfL_chompNL]

theorem goodLines_mem : ∀ ls : List (List Char), goodLines ls → ∀ l ∈ ls, goodLast l
  | [], _, l, hl => absurd hl (List.not_mem_nil l)
  | [a], h, l, hl => by
    rw [List.mem_singleton.mp hl]
    exact h
  | a :: b :: t, h, l, hl => by
    rcases List.mem_cons.mp hl with h1 | h1
    · rw [h1]
      exact Or.inr h.1
    · exact goodLines_mem (b :: t) h.2 l h1

theorem ov_mem_intro (x l k v : List Char) (hl : l ∈ pyReadlinesL x)
    (hkv : kvOfL l = some (k, v)) : (lowerChars k, v) ∈ ovL x := by
  rw [ovL_eq_readlines]
  exact List.mem_filterMap.mpr ⟨l, hl, by rw [hkv]; rfl⟩

theorem ov_mem_elim (x : List Char) (e : List Char × List Char) (he : e ∈ ovL x) :
    ∃ l ∈ pyReadlinesL x, ∃ k v, kvOfL l = some (k, v) ∧ e = (lowerChars k, v) := by
  rw [ovL_eq_readlines] at he
  obtain ⟨l, hl, hmap⟩ := List.mem_filterMap.mp he
  cases hkv : kvOfL l with
  | none =>
    rw [hkv] at hmap
    cases hmap
  | some kv =>
    obtain ⟨k, v⟩ := kv
    rw [hkv] at hmap
    injection hmap with hmap
    exact ⟨l, hl, k, v, hkv, hmap.symm⟩

theorem kvOfL_sub (l k v : List Char) (h : kvOfL l = some (k, v)) (c : Char) :
    (c ∈ k → c ∈ stripChars l) ∧ (c ∈ v → c ∈ stripChars l) := by
  unfold kvOfL at h
  by_cases hcond : stripChars l ≠ [] ∧ (stripChars l).head? ≠ some '#' ∧
      (stripChars l).head? ≠ some ';' ∧ (stripChars l).contains '='
  · rw [if_pos hcond] at h
    injection h with h
    injection h with hk hv
    constructor
    · intro hm
      rw [← hk] at hm
      exact mem_of_mem_takeWhile _ _ _ (mem_stripChars _ _ hm)
    · intro hm
      rw [← hv] at hm
      exact mem_of_mem_dropWhile _ _ _ (List.mem_of_mem_drop (mem_stripChars _ _ hm))
  · rw [if_neg hcond] at h
    cases h

theorem goodLast_strip_clean (l : List Char) (h : goodLast l) :
    '\n' ∉ stripChars l ∧ '\r' ∉ stripChars l := by
  rcases h with ⟨_, hnl, hcr⟩ | ⟨c, hc, hnl, hcr⟩
  · exact ⟨fun hm => hnl (mem_stripChars _ _ hm), fun hm => hcr (mem_stripChars _ _ hm)⟩
  · rw [hc, stripChars_append_ws _ '\n' (by decide)]
    exact ⟨fun hm => hnl (mem_stripChars _ _ hm), fun hm => hcr (mem_stripChars _ _ hm)⟩

theorem kvOfL_parts_clean (l k v : List Char) (hg : goodLast l)
    (hkv : kvOfL l = some (k, v)) :
    ('\n' ∉ k ∧ '\r' ∉ k) ∧ ('\n' ∉ v ∧ '\r' ∉ v) := by
  obtain ⟨hnl, hcr⟩ := goodLast_strip_clean l hg
  exact ⟨⟨fun hm => hnl ((kvOfL_sub l k v hkv _).1 hm),
    fun hm => hcr ((kvOfL_sub l k v hkv _).1 hm)⟩,
    ⟨fun hm => hnl ((kvOfL_sub l k v hkv _).2 hm),
    fun hm => hcr ((kvOfL_sub l k v hkv _).2 hm)⟩⟩

theorem ov_entries_facts (x : List Char) (e : List Char × List Char) (he : e ∈ ovL x) :
    stripChars e.2 = e.2 ∧ '\n' ∉ e.2 ∧ '\r' ∉ e.2 := by
  obtain ⟨l, hl, k, v, hkv, hee⟩ := ov_mem_elim x e he
  subst hee
  dsimp only
  have hg := goodLines_mem _ (goodLines_readlines x) l hl
  exact ⟨(kvOfL_facts l k v hkv).2.1, (kvOfL_parts_clean l k v hg hkv).2⟩

theorem mergeLineL_shape (ov : List (List Char × List Char))
    (hov : ∀ e ∈ ov, stripChars e.2 = e.2 ∧ '\n' ∉ e.2 ∧ '\r' ∉ e.2)
    (l : List Char) (hg : goodLast l) :
    (mergeLineL ov l).1 = l ∨ goodMid ((mergeLineL ov l).1) := by
  cases hkv : kvOfL l with
  | none =>
    rw [mergeLineL_none ov l hkv]
    exact Or.inl rfl
  | some kv =>
    obtain ⟨k, v⟩ := kv
    cases hlv : lastVal ov (lowerChars k) with
    | none =>
      rw [mergeLineL_skip ov l k v hkv hlv]
      exact Or.inl rfl
    | some w =>
      rw [mergeLineL_hit ov l k v w hkv hlv]
      by_cases hwv : w = v
      · rw [if_neg (not_not_intro hwv)]
        exact Or.inl rfl
      · rw [if_pos hwv]
        dsimp only
        have hkc := (kvOfL_parts_clean l k v hg hkv).1
        have hwc := (hov _ (lastVal_mem ov _ w hlv)).2
        refine Or.inr ⟨k ++ [' ', '=', ' '] ++ w, ?_, ?_, ?_⟩
        · rw [List.append_assoc, List.append_assoc]
        · intro hm
          rcases List.mem_append.mp hm with h1 | h1
          · rcases List.mem_append.mp h1 with h2 | h2
            · exact hkc.1 h2
            · simp at h2
          · exact hwc.1 h1
        · intro hm
          rcases List.mem_append.mp hm with h1 | h1
          · rcases List.mem_append.mp h1 with h2 | h2
            · exact hkc.2 h2
            · simp at h2
          · exact hwc.2 h1

theorem mergeLineL_goodLast (ov : List (List Char × List Char))
    (hov : ∀ e ∈ ov, stripChars e.2 = e.2 ∧ '\n' ∉ e.2 ∧ '\r' ∉ e.2)
    (l : List Char) (hg : goodLast l) : goodLast ((mergeLineL ov l).1) := by
  rcases mergeLineL_shape ov hov l hg with he | hmid
  · rw [he]
    exact hg
  · exact Or.inr hmid

theorem mergeLineL_goodMid (ov : List (List Char × List Char))
    (hov : ∀ e ∈ ov, stripChars e.2 = e.2 ∧ '\n' ∉ e.2 ∧ '\r' ∉ e.2)
    (l : List Char) (hg : goodMid l) : goodMid ((mergeLineL ov l).1) := by
  rcases mergeLineL_shape ov hov l (Or.inr hg) with he | hmid
  · rw [he]
    exact hg
  · exact hmid

theorem goodLines_map_mergeLine (ov : List (List Char × List Char))
    (hov : ∀ e ∈ ov, stripChars e.2 = e.2 ∧ '\n' ∉ e.2 ∧ '\r' ∉ e.2) :
    ∀ ls : List (List Char), goodLines ls →
      goodLines (ls.map (fun l => (mergeLineL ov l).1))
  | [], _ => trivial
  | [a], h => by
    rw [List.map_singleton]
    exact mergeLineL_goodLast ov hov a h
  | a :: b :: t, h => by
    rw [List.map_cons]
    exact goodLines_cons _ _ (mergeLineL_goodMid ov hov a h.1)
      (goodLines_map_mergeLine ov hov (b :: t) h.2)

theorem kvnorm_mergeLine (ov : List (List Char × List Char))
    (hov : ∀ e ∈ ov, stripChars e.2 = e.2) (l : List Char) :
    (kvOfL ((mergeLineL ov l).1)).map (fun kv => (lowerChars kv.1, kv.2)) =
      (kvOfL l).map
        (fun kv => (lowerChars kv.1, (lastVal ov (lowerChars kv.1)).getD kv.2)) := by
  cases hkv : kvOfL l with
  | none =>
    rw [mergeLineL_none ov l hkv]
    dsimp only
    rw [hkv]
    rfl
  | some kv =>
    obtain ⟨k, v⟩ := kv
    cases hlv : lastVal ov (lowerChars k) with
    | none =>
      rw [mergeLineL_skip ov l k v hkv hlv]
      dsimp only
      rw [hkv, Option.map_some', Option.map_some']
      dsimp only
      rw [hlv]
      rfl
    | some w =>
      rw [mergeLineL_hit ov l k v w hkv hlv]
      by_cases hwv : w = v
      · rw [if_neg (not_not_intro hwv)]
        dsimp only
        rw [hkv, Option.map_some', Option.map_some']
        subst hwv
        dsimp only
        rw [hlv]
        rfl
      · rw [if_pos hwv]
        dsimp only
        have hf := kvOfL_facts l k v hkv
        have hw : stripChars w = w := hov _ (lastVal_mem ov _ w hlv)
        rw [kvOfL_rebuild k w hf.1 hw hf.2.2.1 hf.2.2.2.1 hf.2.2.2.2,
          Option.map_some', Option.map_some']
        dsimp only
        rw [hlv]
        rfl

theorem ovL_mergeFinal (A O : String) :
    ovL (mergeFinal A O).data =
      (ovL A.data).map (fun e => (e.1, (lastVal (ovL O.data) e.1).getD e.2)) := by
  rw [mergeFinal_eq]
  by_cases hc : mergeCount A O = 0
  · rw [if_pos hc]
    have hpt : ∀ e ∈ ovL A.data,
        (e.1, (lastVal (ovL O.data) e.1).getD e.2) = e := by
      intro e he
      by_cases hov : ovL O.data = []
      · rw [hov]
        rfl
      · rw [mergeCount_eq, if_neg hov] at hc
        have hall := List.countP_eq_zero.mp hc
        obtain ⟨l, hl, k, v, hkv, hee⟩ := ov_mem_elim A.data e he
        have hnc := hall l hl
        subst hee
        dsimp only
        cases hlv : lastVal (ovL O.data) (lowerChars k) with
        | none => rfl
        | some w =>
          rw [lineCarries_hit _ l k v w hkv hlv] at hnc
          simp only [decide_eq_true_eq, not_not] at hnc
          rw [hnc]
          rfl
    conv_rhs => rw [List.map_congr_left hpt]
    simp
  · rw [if_neg hc]
    have hov : ovL O.data ≠ [] := by
      intro h0
      rw [mergeCount_eq, if_pos h0] at hc
      exact hc rfl
    have hfacts : ∀ e ∈ ovL O.data,
        stripChars e.2 = e.2 ∧ '\n' ∉ e.2 ∧ '\r' ∉ e.2 :=
      fun e he => ov_entries_facts O.data e he
    have hgood : goodLines ((pyReadlinesL A.data).map
        (fun l => (mergeLineL (ovL O.data) l).1)) :=
      goodLines_map_mergeLine _ hfacts _ (goodLines_readlines A.data)
    show ovL (joinL ((pyReadlinesL A.data).map
      (fun l => (mergeLineL (ovL O.data) l).1))) = _
    rw [ovL_eq_readlines, readlines_joinL _ hgood, List.filterMap_map]
    rw [ovL_eq_readlines A.data, List.map_filterMap]
    refine List.filterMap_congr fun l hl => ?_
    show (kvOfL ((mergeLineL (ovL O.data) l).1)).map _ = _
    rw [kvnorm_mergeLine _ (fun e he => (hfacts e he).1) l]
    cases kvOfL l with
    | none => rfl
    | some kv => rfl

theorem lastVal_isSome_of_mem {α β : Type} [DecidableEq α] :
    ∀ (l : List (α × β)) (k : α) (v : β), (k, v) ∈ l → ∃ w, lastVal l k = some w
  | [], _, _, h => absurd h (List.not_mem_nil _)
  | (a, b) :: t, k, v, h => by
    rw [lastVal_cons]
    cases hl : lastVal t k with
    | some w => exact ⟨w, rfl⟩
    | none =>
      rcases List.mem_cons.mp h with h1 | h1
      · injection h1 with h1a h1b
        rw [if_pos h1a.symm]
        exact ⟨b, rfl⟩
      · obtain ⟨w, hw⟩ := lastVal_isSome_of_mem t k v h1
        rw [hl] at hw
        cases hw

theorem lastVal_map_keyfun {α β : Type} [DecidableEq α] (g : α → β → β) :
    ∀ (l : List (α × β)) (k : α),
      lastVal (l.map (fun e => (e.1, g e.1 e.2))) k = (lastVal l k).map (g k)
  | [], _ => rfl
  | (a, b) :: t, k => by
    rw [List.map_cons]
    show lastVal ((a, g a b) :: t.map (fun e => (e.1, g e.1 e.2))) k = _
    rw [lastVal_cons, lastVal_cons, lastVal_map_keyfun g t k]
    cases lastVal t k with
    | some w => rfl
    | none =>
      dsimp only [Option.map]
      by_cases ha : a = k
      · rw [if_pos ha, if_pos ha, ha]
      · rw [if_neg ha, if_neg ha]

/-- A snapshot is key-consistent when its old-values dictionary binds every
(lower-cased) key to a single value: no two key lines disagree. -/
def kvConsistent (x : String) : Prop :=
  ∀ k v1 v2, (k, v1) ∈ ovL x.data → (k, v2) ∈ ovL x.data → v1 = v2

theorem lastVal_eq_of_consistent (x : String) (h : kvConsistent x) (k v : List Char)
    (hm : (k, v) ∈ ovL x.data) : lastVal (ovL x.data) k = some v := by
  obtain ⟨w, hw⟩ := lastVal_isSome_of_mem _ k v hm
  rw [hw, h k w v (lastVal_mem _ _ _ hw) hm]

theorem countP_lineCarries_self (x : String) (h : kvConsistent x) :
    (pyReadlinesL x.data).countP (lineCarries (ovL x.data)) = 0 := by
  rw [List.countP_eq_zero]
  intro l hl
  cases hkv : kvOfL l with
  | none =>
    rw [lineCarries_none _ _ hkv]
    simp
  | some kv =>
    obtain ⟨k, v⟩ := kv
    have hmem : (lowerChars k, v) ∈ ovL x.data := ov_mem_intro x.data l k v hl hkv
    have hlast := lastVal_eq_of_consistent x h _ _ hmem
    rw [lineCarries_hit _ l k v v hkv hlast]
    simp

theorem mergeCount_self (x : String) (h : kvConsistent x) : mergeCount x x = 0 := by
  rw [mergeCount_eq]
  by_cases hov : ovL x.data = []
  · rw [if_pos hov]
  · rw [if_neg hov]
    exact countP_lineCarries_self x h

theorem mergeFinal_self (x : String) (h : kvConsistent x) : mergeFinal x x = x := by
  rw [mergeFinal_eq, if_pos (mergeCount_self x h)]

theorem kvConsistent_mergeFinal (y o : String) (h : kvConsistent y) :
    kvConsistent (mergeFinal y o) := by
  intro k v1 v2 h1 h2
  rw [ovL_mergeFinal] at h1 h2
  obtain ⟨e1, he1, heq1⟩ := List.mem_map.mp h1
  obtain ⟨e2, he2, heq2⟩ := List.mem_map.mp h2
  have hk1 : e1.1 = k := congrArg Prod.fst heq1
  have hv1 : (lastVal (ovL o.data) e1.1).getD e1.2 = v1 := congrArg Prod.snd heq1
  have hk2 : e2.1 = k := congrArg Prod.fst heq2
  have hv2 : (lastVal (ovL o.data) e2.1).getD e2.2 = v2 := congrArg Prod.snd heq2
  rw [hk1] at hv1
  rw [hk2] at hv2
  cases hlv : lastVal (ovL o.data) k with
  | some w =>
    rw [hlv] at hv1 hv2
    rw [← hv1, ← hv2]
    rfl
  | none =>
    rw [hlv] at hv1 hv2
    have hm1 : (k, e1.2) ∈ ovL y.data := by
      rw [← hk1]
      exact he1
    have hm2 : (k, e2.2) ∈ ovL y.data := by
      rw [← hk2]
      exact he2
    rw [← hv1, ← hv2]
    exact h k e1.2 e2.2 hm1 hm2

theorem mergeLineL_after (A O : String) (hA : kvConsistent A) (l : List Char)
    (hl : l ∈ pyReadlinesL A.data) :
    mergeLineL (ovL (mergeFinal A O).data) l = mergeLineL (ovL O.data) l := by
  cases hkv : kvOfL l with
  | none => rw [mergeLineL_none _ _ hkv, mergeLineL_none _ _ hkv]
  | some kv =>
    obtain ⟨k, v⟩ := kv
    have hmemA : (lowerChars k, v) ∈ ovL A.data := ov_mem_intro _ l k v hl hkv
    have hlastA : lastVal (ovL A.data) (lowerChars k) = some v :=
      lastVal_eq_of_consistent A hA _ _ hmemA
    have hovF : lastVal (ovL (mergeFinal A O).data) (lowerChars k) =
        (lastVal (ovL A.data) (lowerChars k)).map
          (fun v0 => (lastVal (ovL O.data) (lowerChars k)).getD v0) := by
      rw [ovL_mergeFinal]
      exact lastVal_map_keyfun (fun a b => (lastVal (ovL O.data) a).getD b) (ovL A.data)
        (lowerChars k)
    rw [hlastA, Option.map_some'] at hovF
    cases hlvO : lastVal (ovL O.data) (lowerChars k) with
    | some w =>
      rw [hlvO, Option.getD_some] at hovF
      rw [mergeLineL_hit _ l k v w hkv hovF, mergeLineL_hit _ l k v w hkv hlvO]
    | none =>
      rw [hlvO] at hovF
      rw [mergeLineL_hit _ l k v v hkv hovF, mergeLineL_skip _ l k v hkv hlvO]
      rw [if_neg (not_not_intro rfl)]

theorem mergeCount_idem (A O : String) (hA : kvConsistent A) :
    mergeCount A (mergeFinal A O) = mergeCount A O := by
  by_cases hovO : ovL O.data = []
  · have hcnt0 : mergeCount A O = 0 := by rw [mergeCount_eq, if_pos hovO]
    have hfin : mergeFinal A O = A := by rw [mergeFinal_eq, if_pos hcnt0]
    rw [hfin, hcnt0, mergeCount_self A hA]
  · by_cases hovA : ovL A.data = []
    · have hall : ∀ l ∈ pyReadlinesL A.data, kvOfL l = none := by
        intro l hl
        have hnil : ((pyReadlinesL A.data).filterMap
            (fun ln => (kvOfL ln).map (fun kv => (lowerChars kv.1, kv.2)))) = [] := by
          rw [← ovL_eq_readlines]
          exact hovA
        have h1p := List.filterMap_eq_nil_iff.mp hnil l hl
        have h0 : (kvOfL l).map (fun kv => (lowerChars kv.1, kv.2)) = none := h1p
        cases hkv : kvOfL l with
        | none => rfl
        | some kv =>
          rw [hkv] at h0
          cases h0
      have hcp : ∀ ov : List (List Char × List Char),
          (pyReadlinesL A.data).countP (lineCarries ov) = 0 := by
        intro ov
        rw [List.countP_eq_zero]
        intro l hl
        rw [lineCarries_none _ _ (hall l hl)]
        simp
      have hcnt0 : mergeCount A O = 0 := by
        rw [mergeCount_eq, if_neg hovO]
        exact hcp _
      have hfin : mergeFinal A O = A := by rw [mergeFinal_eq, if_pos hcnt0]
      rw [hfin, hcnt0, mergeCount_eq]
      by_cases h1 : ovL A.data = []
      · rw [if_pos h1]
      · rw [if_neg h1]
        exact hcp _
    · have hovF : ovL (mergeFinal A O).data ≠ [] := by
        rw [ovL_mergeFinal]
        intro h0
        exact hovA (List.map_eq_nil_iff.mp h0)
      rw [mergeCount_eq, mergeCount_eq, if_neg hovF, if_neg hovO]
      refine List.countP_congr fun l hl => ?_
      have h2 := congrArg Prod.snd (mergeLineL_after A O hA l hl)
      rw [mergeLineL_snd, mergeLineL_snd] at h2
      constructor
      · intro hb
        by_cases hb2 : lineCarries (ovL O.data) l = true
        · exact hb2
        · rw [hb, if_pos rfl] at h2
          rw [Bool.not_eq_true] at hb2
          rw [hb2] at h2
          simp at h2
      · intro hb
        by_cases hb2 : lineCarries (ovL (mergeFinal A O).data) l = true
        · exact hb2
        · rw [hb, if_pos rfl] at h2
          rw [Bool.not_eq_true] at hb2
          rw [hb2] at h2
          simp at h2

theorem mergeFinal_idem (A O : String) (hA : kvConsistent A) :
    mergeFinal A (mergeFinal A O) = mergeFinal A O := by
  by_cases hc : mergeCount A O = 0
  · have h1 : mergeFinal A O = A := by rw [mergeFinal_eq, if_pos hc]
    rw [h1]
    exact mergeFinal_self A hA
  · have hc2 : mergeCount A (mergeFinal A O) ≠ 0 := by
      rw [mergeCount_idem A O hA]
      exact hc
    have h3 : (pyReadlinesL A.data).map
        (fun l => (mergeLineL (ovL (mergeFinal A O).data) l).1) =
        (pyReadlinesL A.data).map (fun l => (mergeLineL (ovL O.data) l).1) :=
      List.map_congr_left (fun l hl => congrArg Prod.fst (mergeLineL_after A O hA l hl))
    rw [mergeFinal_eq A (mergeFinal A O), if_neg hc2]
    rw [h3]
    rw [mergeFinal_eq A O, if_neg hc]

theorem fsGet_none_of_not_mem_keys (fs : FS) (p : FPath)
    (h : p ∉ fs.map Prod.fst) : fsGet fs p = none := by
  cases hg : fsGet fs p with
  | none => rfl
  | some c => exact absurd (List.mem_map_of_mem Prod.fst (mem_of_fsGet fs p c hg)) h

theorem lastVal_iniFiles : ∀ (g : FS), (g.map Prod.fst).Nodup → ∀ p : FPath,
    lastVal (iniFiles g) p = (if isIni p = true then fsGet g p else none)
  | [], _, p => by
    by_cases h : isIni p = true
    · rw [if_pos h]
      rfl
    · rw [if_neg h]
      rfl
  | (q, c) :: t, hnd, p => by
    have hnd2 := List.nodup_cons.mp hnd
    have ih := lastVal_iniFiles t hnd2.2 p
    show lastVal (((q, c) :: t).filter (fun e => isIni e.1)) p = _
    rw [List.filter_cons]
    by_cases hq : isIni q = true
    · rw [if_pos (by simpa using hq)]
      show lastVal ((q, c) :: iniFiles t) p = _
      rw [lastVal_cons, ih]
      by_cases hpq : q = p
      · subst hpq
        rw [if_pos hq, fsGet_none_of_not_mem_keys t q hnd2.1]
        dsimp only
        rw [if_pos rfl, fsGet_cons, if_pos rfl, if_pos hq]
      · by_cases hpi : isIni p = true
        · rw [if_pos hpi, if_pos hpi, fsGet_cons]
          cases fsGet t p with
          | some w =>
            dsimp only
            rw [if_neg hpq]
          | none => dsimp only
        · rw [if_neg hpi, if_neg hpi]
          dsimp only
          rw [if_neg hpq]
    · rw [if_neg (by simpa using hq)]
      show lastVal (iniFiles t) p = _
      rw [ih]
      by_cases hpi : isIni p = true
      · rw [if_pos hpi, if_pos hpi, fsGet_cons,
          if_neg (fun hpq => hq (by rw [hpq]; exact hpi))]
      · rw [if_neg hpi, if_neg hpi]

theorem lastVal_copies_not_backups (ts : String) (bk : List (FPath × String)) (q : FPath)
    (h : q.headD "" ≠ "mod_backups") :
    lastVal (bk.map (fun e => (backupPath ts e.1, e.2))) q = none := by
  apply lastVal_eq_none
  intro e he
  obtain ⟨e0, he0, heq⟩ := List.mem_map.mp he
  intro hq
  apply h
  rw [← hq, ← heq]
  rfl

theorem afterBackupsGet_not_backups (fs : FS) (ts : String) (q : FPath)
    (h : q.headD "" ≠ "mod_backups") : afterBackupsGet fs ts q = fsGet fs q := by
  unfold afterBackupsGet
  rw [lastVal_copies_not_backups ts _ q h]

theorem sum_filter_support {α : Type} (g : α → Nat) (P : α → Bool) :
    ∀ L : List α, (∀ q ∈ L, P q = false → g q = 0) →
      (L.map g).sum = ((L.filter P).map g).sum
  | [], _ => rfl
  | a :: L, h => by
    rw [List.map_cons, List.sum_cons, List.filter_cons]
    by_cases ha : P a = true
    · rw [if_pos (by simpa using ha), List.map_cons, List.sum_cons,
        sum_filter_support g P L (fun q hq => h q (List.mem_cons_of_mem _ hq))]
    · rw [Bool.not_eq_true] at ha
      rw [if_neg (by simp [ha]), h a (List.mem_cons_self _ _) ha, Nat.zero_add,
        sum_filter_support g P L (fun q hq => h q (List.mem_cons_of_mem _ hq))]

theorem postExtractGet_write (fs : FS) (writes : List (FPath × String)) (ts : String)
    (q : FPath) (c : String) (hw : lastVal writes q = some c) :
    postExtractGet fs writes ts q = some c := by
  unfold postExtractGet
  rw [hw]

theorem postExtractGet_nowrite (fs : FS) (writes : List (FPath × String)) (ts : String)
    (q : FPath) (hw : lastVal writes q = none) :
    postExtractGet fs writes ts q =
      (if topKeep q = true then afterBackupsGet fs ts q else none) := by
  unfold postExtractGet
  rw [hw]

theorem installedGet_some_some (fs : FS) (writes : List (FPath × String)) (ts : String)
    (q : FPath) (c cur : String) (h1 : lastVal (iniFiles fs) q = some c)
    (h2 : postExtractGet fs writes ts q = some cur) :
    installedGet fs writes ts q = some (mergeFinal cur c) := by
  unfold installedGet
  rw [h1]
  dsimp only
  rw [h2]

theorem installedGet_some_none (fs : FS) (writes : List (FPath × String)) (ts : String)
    (q : FPath) (c : String) (h1 : lastVal (iniFiles fs) q = some c)
    (h2 : postExtractGet fs writes ts q = none) :
    installedGet fs writes ts q = some c := by
  unfold installedGet
  rw [h1]
  dsimp only
  rw [h2]

theorem installedGet_none (fs : FS) (writes : List (FPath × String)) (ts : String)
    (q : FPath) (h1 : lastVal (iniFiles fs) q = none) :
    installedGet fs writes ts q = postExtractGet fs writes ts q := by
  unfold installedGet
  rw [h1]

theorem install_twice_get (fs : FS) (writes : List (FPath × String)) (ts1 ts2 : String)
    (hnd : (fs.map Prod.fst).Nodup)
    (hWc : ∀ e ∈ writes, isIni e.1 = true → kvConsistent e.2)
    (hFc : ∀ e ∈ fs, isIni e.1 = true → kvConsistent e.2)
    (p : FPath) (hp : p.headD "" ≠ "mod_backups") :
    fsGet (install_mod_from_zip (install_mod_from_zip fs writes ts1).1 writes ts2).1 p =
      fsGet (install_mod_from_zip fs writes ts1).1 p := by
  have hnd1 : (((install_mod_from_zip fs writes ts1).1).map Prod.fst).Nodup :=
    keysNodup_install fs writes ts1 hnd
  have hg1 : fsGet (install_mod_from_zip fs writes ts1).1 p =
      installedGet fs writes ts1 p := install_get fs writes ts1 hnd p
  rw [install_get _ writes ts2 hnd1 p, hg1]
  have hbk1 := lastVal_iniFiles fs hnd p
  have hbk2 := lastVal_iniFiles (install_mod_from_zip fs writes ts1).1 hnd1 p
  have hab1 : afterBackupsGet fs ts1 p = fsGet fs p :=
    afterBackupsGet_not_backups fs ts1 p hp
  have hab2 : afterBackupsGet (install_mod_from_zip fs writes ts1).1 ts2 p =
      fsGet (install_mod_from_zip fs writes ts1).1 p :=
    afterBackupsGet_not_backups _ ts2 p hp
  cases hw : lastVal writes p with
  | some A =>
    have hpe1 : postExtractGet fs writes ts1 p = some A :=
      postExtractGet_write fs writes ts1 p A hw
    have hpe2 : postExtractGet (install_mod_from_zip fs writes ts1).1 writes ts2 p = some A :=
      postExtractGet_write _ writes ts2 p A hw
    by_cases hi : isIni p = true
    · have hAc : kvConsistent A := hWc (p, A) (lastVal_mem _ _ _ hw) hi
      cases hf0 : fsGet fs p with
      | some c0 =>
        have hr1 : installedGet fs writes ts1 p = some (mergeFinal A c0) :=
          installedGet_some_some fs writes ts1 p c0 A
            (by rw [hbk1, if_pos hi, hf0]) hpe1
        have hgg : fsGet (install_mod_from_zip fs writes ts1).1 p =
            some (mergeFinal A c0) := by rw [hg1, hr1]
        have hr2 : installedGet (install_mod_from_zip fs writes ts1).1 writes ts2 p =
            some (mergeFinal A (mergeFinal A c0)) :=
          installedGet_some_some _ writes ts2 p (mergeFinal A c0) A
            (by rw [hbk2, if_pos hi, hgg]) hpe2
        rw [hr1, hr2, mergeFinal_idem A c0 hAc]
      | none =>
        have hr1 : installedGet fs writes ts1 p = some A := by
          rw [installedGet_none fs writes ts1 p (by rw [hbk1, if_pos hi, hf0]), hpe1]
        have hgg : fsGet (install_mod_from_zip fs writes ts1).1 p = some A := by
          rw [hg1, hr1]
        have hr2 : installedGet (install_mod_from_zip fs writes ts1).1 writes ts2 p =
            some (mergeFinal A A) :=
          installedGet_some_some _ writes ts2 p A A (by rw [hbk2, if_pos hi, hgg]) hpe2
        rw [hr1, hr2, mergeFinal_self A hAc]
    · have hr1 : installedGet fs writes ts1 p = some A := by
        rw [installedGet_none fs writes ts1 p (by rw [hbk1, if_neg hi]), hpe1]
      have hr2 : installedGet (install_mod_from_zip fs writes ts1).1 writes ts2 p = some A := by
        rw [installedGet_none _ writes ts2 p (by rw [hbk2, if_neg hi]), hpe2]
      rw [hr1, hr2]
  | none =>
    have hpe1 : postExtractGet fs writes ts1 p =
        (if topKeep p = true then fsGet fs p else none) := by
      rw [postExtractGet_nowrite fs writes ts1 p hw, hab1]
    have hpe2 : postExtractGet (install_mod_from_zip fs writes ts1).1 writes ts2 p =
        (if topKeep p = true then fsGet (install_mod_from_zip fs writes ts1).1 p else none) := by
      rw [postExtractGet_nowrite _ writes ts2 p hw, hab2]
    by_cases hi : isIni p = true
    · cases hf0 : fsGet fs p with
      | some c0 =>
        have hc0 : kvConsistent c0 := hFc _ (mem_of_fsGet fs p c0 hf0) hi
        by_cases htk : topKeep p = true
        · have hr1 : installedGet fs writes ts1 p = some c0 := by
            rw [installedGet_some_some fs writes ts1 p c0 c0
              (by rw [hbk1, if_pos hi, hf0]) (by rw [hpe1, if_pos htk, hf0]),
              mergeFinal_self c0 hc0]
          have hgg : fsGet (install_mod_from_zip fs writes ts1).1 p = some c0 := by
            rw [hg1, hr1]
          have hr2 : installedGet (install_mod_from_zip fs writes ts1).1 writes ts2 p =
              some c0 := by
            rw [installedGet_some_some _ writes ts2 p c0 c0
              (by rw [hbk2, if_pos hi, hgg]) (by rw [hpe2, if_pos htk, hgg]),
              mergeFinal_self c0 hc0]
          rw [hr1, hr2]
        · have hr1 : installedGet fs writes ts1 p = some c0 :=
            installedGet_some_none fs writes ts1 p c0
              (by rw [hbk1, if_pos hi, hf0]) (by rw [hpe1, if_neg htk])
          have hgg : fsGet (install_mod_from_zip fs writes ts1).1 p = some c0 := by
            rw [hg1, hr1]
          have hr2 : installedGet (install_mod_from_zip fs writes ts1).1 writes ts2 p =
              some c0 :=
            installedGet_some_none _ writes ts2 p c0
              (by rw [hbk2, if_pos hi, hgg]) (by rw [hpe2, if_neg htk])
          rw [hr1, hr2]
      | none =>
        have hr1 : installedGet fs writes ts1 p = none := by
          rw [installedGet_none fs writes ts1 p (by rw [hbk1, if_pos hi, hf0]), hpe1, hf0]
          by_cases htk : topKeep p = true
          · rw [if_pos htk]
          · rw [if_neg htk]
        have hgg : fsGet (install_mod_from_zip fs writes ts1).1 p = none := by
          rw [hg1, hr1]
        have hr2 : installedGet (install_mod_from_zip fs writes ts1).1 writes ts2 p = none := by
          rw [installedGet_none _ writes ts2 p (by rw [hbk2, if_pos hi, hgg]), hpe2, hgg]
          by_cases htk : topKeep p = true
          · rw [if_pos htk]
          · rw [if_neg htk]
        rw [hr1, hr2]
    · have hr1 : installedGet fs writes ts1 p =
          (if topKeep p = true then fsGet fs p else none) := by
        rw [installedGet_none fs writes ts1 p (by rw [hbk1, if_neg hi]), hpe1]
      have hr2 : installedGet (install_mod_from_zip fs writes ts1).1 writes ts2 p =
          (if topKeep p = true then fsGet (install_mod_from_zip fs writes ts1).1 p else none) := by
        rw [installedGet_none _ writes ts2 p (by rw [hbk2, if_neg hi]), hpe2]
      rw [hr1, hr2]
      by_cases htk : topKeep p = true
      · rw [if_pos htk, if_pos htk, hg1, hr1, if_pos htk]
      · rw [if_neg htk, if_neg htk]

/-- Contribution of path `q` to the merged-keys count of a run whose
snapshot dictionary is `bk`: positive only when the archive rewrites `q`
and the snapshot holds it. -/
def twiceContrib (writes bk : List (FPath × String)) (q : FPath) : Nat :=
  match lastVal writes q with
  | some A =>
    match lastVal bk q with
    | some c0 => mergeCount A c0
    | none => 0
  | none => 0

/-- `q` can contribute to the count: it is both written by the archive and
present in the snapshot. -/
def twiceLive (writes bk : List (FPath × String)) (q : FPath) : Bool :=
  (lastVal writes q).isSome && (lastVal bk q).isSome

theorem twiceContrib_eq_zero (writes bk : List (FPath × String)) (q : FPath)
    (h : twiceLive writes bk q = false) : twiceContrib writes bk q = 0 := by
  unfold twiceLive at h
  unfold twiceContrib
  cases hw : lastVal writes q with
  | none => rfl
  | some A =>
    cases hb : lastVal bk q with
    | none => rfl
    | some c0 =>
      rw [hw, hb] at h
      cases h

theorem run1_contrib (fs : FS) (writes : List (FPath × String)) (ts1 : String)
    (hnd : (fs.map Prod.fst).Nodup)
    (hFc : ∀ e ∈ fs, isIni e.1 = true → kvConsistent e.2)
    (hFb : ∀ e ∈ fs, e.1.headD "" ≠ "mod_backups") :
    ∀ e ∈ iniFiles fs,
      (match postExtractGet fs writes ts1 e.1 with
       | some cur => mergeCount cur e.2
       | none => 0) = twiceContrib writes (iniFiles fs) e.1 := by
  intro e he
  have hef : e ∈ fs := (List.mem_filter.mp he).1
  have hei : isIni e.1 = true := by simpa using (List.mem_filter.mp he).2
  have hbnd : ((iniFiles fs).map Prod.fst).Nodup := keysNodup_filter fs _ hnd
  have hlbk : lastVal (iniFiles fs) e.1 = some e.2 :=
    lastVal_of_mem_nodup _ hbnd e.1 e.2 he
  unfold twiceContrib
  cases hw : lastVal writes e.1 with
  | some A =>
    rw [postExtractGet_write fs writes ts1 e.1 A hw, hlbk]
  | none =>
    rw [postExtractGet_nowrite fs writes ts1 e.1 hw]
    by_cases htk : topKeep e.1 = true
    · rw [if_pos htk, afterBackupsGet_not_backups fs ts1 e.1 (hFb e hef),
        fsGet_eq_of_mem fs hnd e.1 e.2 hef]
      exact mergeCount_self e.2 (hFc e hef hei)
    · rw [if_neg htk]

theorem run2_contrib (fs : FS) (writes : List (FPath × String)) (ts1 ts2 : String)
    (hnd : (fs.map Prod.fst).Nodup)
    (hWc : ∀ e ∈ writes, isIni e.1 = true → kvConsistent e.2)
    (hFc : ∀ e ∈ fs, isIni e.1 = true → kvConsistent e.2)
    (hFb : ∀ e ∈ fs, e.1.headD "" ≠ "mod_backups")
    (hts : ∀ a b : String, ts2 ++ "_" ++ a ≠ ts1 ++ "_" ++ b) :
    ∀ e ∈ iniFiles (install_mod_from_zip fs writes ts1).1,
      (match postExtractGet (install_mod_from_zip fs writes ts1).1 writes ts2 e.1 with
       | some cur => mergeCount cur e.2
       | none => 0) = twiceContrib writes (iniFiles fs) e.1 := by
  intro e he
  have hnd1 : (((install_mod_from_zip fs writes ts1).1).map Prod.fst).Nodup :=
    keysNodup_install fs writes ts1 hnd
  have hef1 : e ∈ (install_mod_from_zip fs writes ts1).1 := (List.mem_filter.mp he).1
  have hei : isIni e.1 = true := by simpa using (List.mem_filter.mp he).2
  have hgg : fsGet (install_mod_from_zip fs writes ts1).1 e.1 = some e.2 :=
    fsGet_eq_of_mem _ hnd1 e.1 e.2 hef1
  have hinst : installedGet fs writes ts1 e.1 = some e.2 := by
    rw [← install_get fs writes ts1 hnd e.1]
    exact hgg
  unfold twiceContrib
  cases hw : lastVal writes e.1 with
  | some A =>
    have hAc : kvConsistent A := hWc (e.1, A) (lastVal_mem _ _ _ hw) hei
    rw [postExtractGet_write _ writes ts2 e.1 A hw]
    dsimp only
    cases hbk : lastVal (iniFiles fs) e.1 with
    | some c0 =>
      have hpe1 : postExtractGet fs writes ts1 e.1 = some A :=
        postExtractGet_write fs writes ts1 e.1 A hw
      have h2 : installedGet fs writes ts1 e.1 = some (mergeFinal A c0) :=
        installedGet_some_some fs writes ts1 e.1 c0 A hbk hpe1
      rw [h2] at hinst
      injection hinst with hinst
      rw [← hinst, mergeCount_idem A c0 hAc]
    | none =>
      have hpe1 : postExtractGet fs writes ts1 e.1 = some A :=
        postExtractGet_write fs writes ts1 e.1 A hw
      have h2 : installedGet fs writes ts1 e.1 = some A := by
        rw [installedGet_none fs writes ts1 e.1 hbk, hpe1]
      rw [h2] at hinst
      injection hinst with hinst
      rw [← hinst, mergeCount_self A hAc]
  | none =>
    dsimp only
    rw [postExtractGet_nowrite _ writes ts2 e.1 hw]
    by_cases htk : topKeep e.1 = true
    case neg => rw [if_neg htk]
    case pos =>
    rw [if_pos htk]
    by_cases hhd : e.1.headD "" = "mod_backups"
    · have hbk : lastVal (iniFiles fs) e.1 = none := by
        cases hb : lastVal (iniFiles fs) e.1 with
        | none => rfl
        | some c0 =>
          exact absurd hhd
            (hFb (e.1, c0) ((List.mem_filter.mp (lastVal_mem _ _ _ hb)).1))
      have hinst2 : postExtractGet fs writes ts1 e.1 = some e.2 := by
        rw [← installedGet_none fs writes ts1 e.1 hbk]
        exact hinst
      rw [postExtractGet_nowrite fs writes ts1 e.1 hw, if_pos htk] at hinst2
      have hfs0 : fsGet fs e.1 = none := by
        cases hf : fsGet fs e.1 with
        | none => rfl
        | some c =>
          exact absurd hhd (hFb (e.1, c) (mem_of_fsGet fs e.1 c hf))
      have hcop : lastVal ((iniFiles fs).map
          (fun e0 => (backupPath ts1 e0.1, e0.2))) e.1 = some e.2 := by
        unfold afterBackupsGet at hinst2
        cases hlc : lastVal ((iniFiles fs).map
            (fun e0 => (backupPath ts1 e0.1, e0.2))) e.1 with
        | none =>
          rw [hlc] at hinst2
          dsimp only at hinst2
          rw [hfs0] at hinst2
          cases hinst2
        | some c =>
          rw [hlc] at hinst2
          dsimp only at hinst2
          injection hinst2 with hc2
          rw [hc2]
      obtain ⟨e0, he0, heq⟩ := List.mem_map.mp (lastVal_mem _ _ _ hcop)
      injection heq with hpath hval
      have hcop2 : lastVal ((iniFiles (install_mod_from_zip fs writes ts1).1).map
          (fun x => (backupPath ts2 x.1, x.2))) e.1 = none := by
        apply lastVal_eq_none
        intro x hx
        obtain ⟨x0, hx0, hxeq⟩ := List.mem_map.mp hx
        intro hq
        rw [← hxeq] at hq
        have hq2 : backupPath ts2 x0.1 = e.1 := hq
        rw [← hpath] at hq2
        unfold backupPath at hq2
        injection hq2 with h1 h2
        injection h2 with h3 h4
        exact hts (x0.1.getLastD "") (e0.1.getLastD "") h3
      have haf : afterBackupsGet (install_mod_from_zip fs writes ts1).1 ts2 e.1 =
          some e.2 := by
        unfold afterBackupsGet
        rw [hcop2]
        exact hgg
      rw [haf]
      dsimp only
      have he0f : e0 ∈ fs := (List.mem_filter.mp he0).1
      have he0i : isIni e0.1 = true := by simpa using (List.mem_filter.mp he0).2
      rw [← hval]
      exact mergeCount_self e0.2 (hFc e0 he0f he0i)
    · have haf2 : afterBackupsGet (install_mod_from_zip fs writes ts1).1 ts2 e.1 =
          some e.2 := by
        rw [afterBackupsGet_not_backups _ ts2 e.1 hhd]
        exact hgg
      rw [haf2]
      dsimp only
      cases hbk : lastVal (iniFiles fs) e.1 with
      | some c0 =>
        have hmbk := lastVal_mem _ _ _ hbk
        have hmf : (e.1, c0) ∈ fs := (List.mem_filter.mp hmbk).1
        have hc0 : kvConsistent c0 := hFc (e.1, c0) hmf hei
        have hf0 : fsGet fs e.1 = some c0 := fsGet_eq_of_mem fs hnd e.1 c0 hmf
        have hpe1 : postExtractGet fs writes ts1 e.1 = some c0 := by
          rw [postExtractGet_nowrite fs writes ts1 e.1 hw, if_pos htk,
            afterBackupsGet_not_backups fs ts1 e.1 hhd, hf0]
        have h2 : installedGet fs writes ts1 e.1 = some (mergeFinal c0 c0) :=
          installedGet_some_some fs writes ts1 e.1 c0 c0 hbk hpe1
        rw [mergeFinal_self c0 hc0] at h2
        rw [h2] at hinst
        injection hinst with hinst
        rw [← hinst]
        exact mergeCount_self c0 hc0
      | none =>
        exfalso
        have h2 : installedGet fs writes ts1 e.1 = fsGet fs e.1 := by
          rw [installedGet_none fs writes ts1 e.1 hbk,
            postExtractGet_nowrite fs writes ts1 e.1 hw, if_pos htk,
            afterBackupsGet_not_backups fs ts1 e.1 hhd]
        rw [h2] at hinst
        have hmf : (e.1, e.2) ∈ iniFiles fs :=
          List.mem_filter.mpr ⟨mem_of_fsGet fs e.1 e.2 hinst, by simpa using hei⟩
        obtain ⟨w, hw2⟩ := lastVal_isSome_of_mem (iniFiles fs) e.1 e.2 hmf
        rw [hbk] at hw2
        cases hw2

theorem twiceLive_mem_bk1 (writes bk : List (FPath × String)) (q : FPath)
    (h : twiceLive writes bk q = true) : q ∈ bk.map Prod.fst := by
  unfold twiceLive at h
  rcases Bool.and_eq_true_iff.mp h with ⟨_, h2⟩
  cases hb : lastVal bk q with
  | none =>
    rw [hb] at h2
    cases h2
  | some c0 => exact lastVal_key_mem bk q c0 hb

theorem twiceLive_mem_bk2 (fs : FS) (writes : List (FPath × String)) (ts1 : String)
    (hnd : (fs.map Prod.fst).Nodup) (q : FPath)
    (h : twiceLive writes (iniFiles fs) q = true) :
    q ∈ (iniFiles (install_mod_from_zip fs writes ts1).1).map Prod.fst := by
  unfold twiceLive at h
  rcases Bool.and_eq_true_iff.mp h with ⟨h1, h2⟩
  obtain ⟨A, hw⟩ : ∃ A, lastVal writes q = some A := by
    cases hwv : lastVal writes q with
    | none =>
      rw [hwv] at h1
      cases h1
    | some A => exact ⟨A, rfl⟩
  obtain ⟨c0, hb⟩ : ∃ c0, lastVal (iniFiles fs) q = some c0 := by
    cases hbv : lastVal (iniFiles fs) q with
    | none =>
      rw [hbv] at h2
      cases h2
    | some c0 => exact ⟨c0, rfl⟩
  have hqi : isIni q = true := by
    simpa using (List.mem_filter.mp (lastVal_mem _ _ _ hb)).2
  have hinst : installedGet fs writes ts1 q = some (mergeFinal A c0) :=
    installedGet_some_some fs writes ts1 q c0 A hb
      (postExtractGet_write fs writes ts1 q A hw)
  have hget : fsGet (install_mod_from_zip fs writes ts1).1 q = some (mergeFinal A c0) := by
    rw [install_get fs writes ts1 hnd q]
    exact hinst
  have hm := mem_of_fsGet _ q _ hget
  exact List.mem_map_of_mem Prod.fst
    (List.mem_filter.mpr ⟨hm, by simpa using hqi⟩)

theorem install_twice_count (fs : FS) (writes : List (FPath × String)) (ts1 ts2 : String)
    (hnd : (fs.map Prod.fst).Nodup)
    (hWc : ∀ e ∈ writes, isIni e.1 = true → kvConsistent e.2)
    (hFc : ∀ e ∈ fs, isIni e.1 = true → kvConsistent e.2)
    (hFb : ∀ e ∈ fs, e.1.headD "" ≠ "mod_backups")
    (hts : ∀ a b : String, ts2 ++ "_" ++ a ≠ ts1 ++ "_" ++ b) :
    (install_mod_from_zip (install_mod_from_zip fs writes ts1).1 writes ts2).2 =
      (install_mod_from_zip fs writes ts1).2 := by
  have hnd1 : (((install_mod_from_zip fs writes ts1).1).map Prod.fst).Nodup :=
    keysNodup_install fs writes ts1 hnd
  rw [install_count fs writes ts1 hnd, install_count _ writes ts2 hnd1]
  rw [List.map_congr_left (run2_contrib fs writes ts1 ts2 hnd hWc hFc hFb hts)]
  rw [List.map_congr_left (run1_contrib fs writes ts1 hnd hFc hFb)]
  have hmm1 : (iniFiles fs).map (fun e => twiceContrib writes (iniFiles fs) e.1) =
      ((iniFiles fs).map Prod.fst).map (twiceContrib writes (iniFiles fs)) := by
    rw [List.map_map]
    rfl
  have hmm2 : (iniFiles (install_mod_from_zip fs writes ts1).1).map
        (fun e => twiceContrib writes (iniFiles fs) e.1) =
      ((iniFiles (install_mod_from_zip fs writes ts1).1).map Prod.fst).map
        (twiceContrib writes (iniFiles fs)) := by
    rw [List.map_map]
    rfl
  rw [hmm1, hmm2]
  rw [sum_filter_support (twiceContrib writes (iniFiles fs)) (twiceLive writes (iniFiles fs))
    ((iniFiles (install_mod_from_zip fs writes ts1).1).map Prod.fst)
    (fun q _ hz => twiceContrib_eq_zero writes (iniFiles fs) q hz)]
  rw [sum_filter_support (twiceContrib writes (iniFiles fs)) (twiceLive writes (iniFiles fs))
    ((iniFiles fs).map Prod.fst)
    (fun q _ hz => twiceContrib_eq_zero writes (iniFiles fs) q hz)]
  have hndk1 : (((iniFiles fs).map Prod.fst).filter
      (twiceLive writes (iniFiles fs))).Nodup :=
    ((keysNodup_filter fs _ hnd)).filter _
  have hndk2 : (((iniFiles (install_mod_from_zip fs writes ts1).1).map Prod.fst).filter
      (twiceLive writes (iniFiles fs))).Nodup :=
    ((keysNodup_filter _ _ hnd1)).filter _
  have hperm : List.Perm
      (((iniFiles (install_mod_from_zip fs writes ts1).1).map Prod.fst).filter
        (twiceLive writes (iniFiles fs)))
      (((iniFiles fs).map Prod.fst).filter (twiceLive writes (iniFiles fs))) := by
    refine (List.perm_ext_iff_of_nodup hndk2 hndk1).mpr fun q => ?_
    rw [List.mem_filter, List.mem_filter]
    constructor
    · rintro ⟨_, hl⟩
      exact ⟨twiceLive_mem_bk1 writes (iniFiles fs) q hl, hl⟩
    · rintro ⟨_, hl⟩
      exact ⟨twiceLive_mem_bk2 fs writes ts1 hnd q hl, hl⟩
  exact (hperm.map (twiceContrib writes (iniFiles fs))).sum_eq

theorem kvConsistent_of_singleton (x : String) (k0 v0 : List Char)
    (hov : ovL x.data = [(k0, v0)]) : kvConsistent x := by
  intro k v1 v2 h1 h2
  rw [hov] at h1 h2
  have e1 := List.mem_singleton.mp h1
  have e2 := List.mem_singleton.mp h2
  injection e1 with e1a e1b
  injection e2 with e2a e2b
  rw [e1b, e2b]

/-- C5 counterexample: on `fs = [a.ini ↦ "k=7"]` with an archive writing
`a.ini ↦ "k=5"`, the first install merges the old value back (count 1) and
leaves `a.ini = "k = 7\n"` plus the dated copy `mod_backups/T1_a.ini`.
Running the install again does not reproduce the same tree — it adds two
new dated copies under `mod_backups/` (`T2_a.ini`, `T2_T1_a.ini`) — and
its merge-changed-key count is again 1, not 0: the archive rewrites
`a.ini` to `k=5` and the merge once more carries the user's `7` over. -/
theorem install_twice_counterexample :
    fsGet (install_mod_from_zip
        (install_mod_from_zip [(["a.ini"], "k=7")] [(["a.ini"], "k=5")] "T1").1
        [(["a.ini"], "k=5")] "T2").1 ["mod_backups", "T2_a.ini"] = some "k = 7\n" ∧
    fsGet (install_mod_from_zip [(["a.ini"], "k=7")] [(["a.ini"], "k=5")] "T1").1
        ["mod_backups", "T2_a.ini"] = none ∧
    (install_mod_from_zip
        (install_mod_from_zip [(["a.ini"], "k=7")] [(["a.ini"], "k=5")] "T1").1
        [(["a.ini"], "k=5")] "T2").2 = 1 ∧
    (install_mod_from_zip [(["a.ini"], "k=7")] [(["a.ini"], "k=5")] "T1").2 = 1 := by
  refine ⟨?_, ?_, ?_, ?_⟩ <;> decide

/-- C5 (amended): rerunning the install with the same archive is idempotent
only away from the backup directory and only up to the repeated merge
count.  With unique keys, key-consistent `.ini` contents in the tree and
the archive, no tracked file under `mod_backups/`, and a fresh second
timestamp, the second run leaves every path outside `mod_backups/`
byte-identical to the first run's result, and its merge-changed-key count
equals the first run's count (the same old values are carried into the
freshly extracted files again) — not 0, and the tree as a whole is not
preserved, since new dated copies appear under `mod_backups/`. -/
theorem install_twice_spec (fs : FS) (writes : List (FPath × String)) (ts1 ts2 : String)
    (hnd : (fs.map Prod.fst).Nodup)
    (hWc : ∀ e ∈ writes, isIni e.1 = true → kvConsistent e.2)
    (hFc : ∀ e ∈ fs, isIni e.1 = true → kvConsistent e.2)
    (hFb : ∀ e ∈ fs, e.1.headD "" ≠ "mod_backups")
    (hts : ∀ a b : String, ts2 ++ "_" ++ a ≠ ts1 ++ "_" ++ b) :
    (∀ p : FPath, p.headD "" ≠ "mod_backups" →
      fsGet (install_mod_from_zip (install_mod_from_zip fs writes ts1).1 writes ts2).1 p =
        fsGet (install_mod_from_zip fs writes ts1).1 p) ∧
    (install_mod_from_zip (install_mod_from_zip fs writes ts1).1 writes ts2).2 =
      (install_mod_from_zip fs writes ts1).2 :=
  ⟨fun p hp => install_twice_get fs writes ts1 ts2 hnd hWc hFc p hp,
   install_twice_count fs writes ts1 ts2 hnd hWc hFc hFb hts⟩

/-- Witness for C5 on the concrete counterexample scenario: all hypotheses
hold there, the second run preserves `a.ini` (and every other
non-`mod_backups` path), and both counts are 1. -/
theorem install_twice_spec_witness :
    (∀ p : FPath, p.headD "" ≠ "mod_backups" →
      fsGet (install_mod_from_zip
          (install_mod_from_zip [(["a.ini"], "k=7")] [(["a.ini"], "k=5")] "T1").1
          [(["a.ini"], "k=5")] "T2").1 p =
        fsGet (install_mod_from_zip [(["a.ini"], "k=7")] [(["a.ini"], "k=5")] "T1").1 p) ∧
    (install_mod_from_zip
        (install_mod_from_zip [(["a.ini"], "k=7")] [(["a.ini"], "k=5")] "T1").1
        [(["a.ini"], "k=5")] "T2").2 =
      (install_mod_from_zip [(["a.ini"], "k=7")] [(["a.ini"], "k=5")] "T1").2 :=
  install_twice_spec [(["a.ini"], "k=7")] [(["a.ini"], "k=5")] "T1" "T2"
    (by decide)
    (fun e he _ => by
      rw [List.mem_singleton.mp he]
      exact kvConsistent_of_singleton "k=5" ['k'] ['5'] (by decide))
    (fun e he _ => by
      rw [List.mem_singleton.mp he]
      exact kvConsistent_of_singleton "k=7" ['k'] ['7'] (by decide))
    (fun e he => by
      rw [List.mem_singleton.mp he]
      decide)
    (fun a b h => by
      have h2 := congrArg String.data h
      simp [String.data_append] at h2)

end FSMM
